import Mathlib

/-!
# Verification of the `sentiment` multinomial Naive Bayes core

A shallow embedding of the Go package `sentiment` (naive Bayes classifier:
training, prediction, evaluation, snapshot codec) together with proofs of the
specification's claims about it.

Modelling conventions:
* A Go `map[string]V` is `Option (List (String × V))`: `none` is a nil map
  (as produced by the zero value of `Snapshot` and preserved by the copy
  helpers), `some l` is a non-nil map holding the association list `l`.
  Reading a nil map yields the zero value; writing to a nil map is a runtime
  panic, which mutating operations surface as an `Option` result
  (`none` = panic).
* Go `int` is `Int`; `float64` arithmetic is idealized over `ℝ`
  (`math.Log` / `math.Exp` become `Real.log` / `Real.exp`).
* Go map iteration order is unspecified; the embedding iterates association
  lists in list order, which fixes one concrete iteration order.
-/

/-! ## Association-list primitives (contents of a non-nil Go map) -/

/-- Read a key from an association list, with a default for absent keys
(Go's zero-value-on-missing-key read). -/
def lookupList {α : Type} (d : α) : List (String × α) → String → α
  | [], _ => d
  | p :: ps, k => if p.1 = k then p.2 else lookupList d ps k

/-- Keys of an association list. -/
def keysList {α : Type} (l : List (String × α)) : List String :=
  l.map Prod.fst

/-- Write a key into an association list: replace the binding when the key is
present, append it otherwise (Go `m[k] = v` on a non-nil map). -/
def setList {α : Type} (l : List (String × α)) (k : String) (v : α) :
    List (String × α) :=
  if k ∈ keysList l then l.map (fun p => if p.1 = k then (k, v) else p)
  else l ++ [(k, v)]

/-- Sum of the values of an `Int`-valued association list. -/
def sumVals (l : List (String × Int)) : Int :=
  (l.map Prod.snd).sum

@[simp] theorem lookupList_nil {α : Type} (d : α) (k : String) :
    lookupList d [] k = d := rfl

theorem lookupList_cons {α : Type} (d : α) (p : String × α)
    (ps : List (String × α)) (k : String) :
    lookupList d (p :: ps) k = if p.1 = k then p.2 else lookupList d ps k := rfl

@[simp] theorem keysList_nil {α : Type} : keysList ([] : List (String × α)) = [] := rfl

@[simp] theorem keysList_cons {α : Type} (p : String × α) (ps : List (String × α)) :
    keysList (p :: ps) = p.1 :: keysList ps := rfl

@[simp] theorem keysList_append {α : Type} (l l' : List (String × α)) :
    keysList (l ++ l') = keysList l ++ keysList l' := by
  simp [keysList]

theorem mem_keysList {α : Type} {l : List (String × α)} {k : String} :
    k ∈ keysList l ↔ ∃ p ∈ l, p.1 = k := by
  simp [keysList]

theorem setList_of_not_mem {α : Type} {l : List (String × α)} {k : String}
    (h : k ∉ keysList l) (v : α) : setList l k v = l ++ [(k, v)] := by
  simp [setList, h]

theorem lookupList_eq_default_of_not_mem {α : Type} {l : List (String × α)}
    {k : String} (d : α) (h : k ∉ keysList l) : lookupList d l k = d := by
  induction l with
  | nil => rfl
  | cons p ps ih =>
    simp only [keysList_cons, List.mem_cons, not_or] at h
    rw [lookupList_cons, if_neg (fun hk => h.1 hk.symm)]
    exact ih h.2

theorem lookupList_append_right {α : Type} {l : List (String × α)} {k : String}
    (d : α) (h : k ∉ keysList l) (l' : List (String × α)) :
    lookupList d (l ++ l') k = lookupList d l' k := by
  induction l with
  | nil => rfl
  | cons p ps ih =>
    simp only [keysList_cons, List.mem_cons, not_or] at h
    rw [List.cons_append, lookupList_cons, if_neg (fun hk => h.1 hk.symm)]
    exact ih h.2

theorem lookupList_append_left {α : Type} {l : List (String × α)} {k : String}
    (d : α) (h : k ∈ keysList l) (l' : List (String × α)) :
    lookupList d (l ++ l') k = lookupList d l k := by
  induction l with
  | nil => simp at h
  | cons p ps ih =>
    by_cases hp : p.1 = k
    · simp [lookupList_cons, hp]
    · simp only [keysList_cons, List.mem_cons] at h
      rcases h with h | h
      · exact absurd h.symm hp
      · rw [List.cons_append, lookupList_cons, if_neg hp, lookupList_cons, if_neg hp]
        exact ih h

/-- The value-replacing map used by `setList` on a present key leaves the
lookup of any other key unchanged. -/
theorem lookupList_map_set_ne {α : Type} (d : α) (l : List (String × α))
    {k k' : String} (hne : k' ≠ k) (v : α) :
    lookupList d (l.map (fun p => if p.1 = k then (k, v) else p)) k' =
      lookupList d l k' := by
  induction l with
  | nil => rfl
  | cons p ps ih =>
    by_cases hp : p.1 = k
    · rw [List.map_cons, if_pos hp, lookupList_cons, lookupList_cons, hp]
      have hkk : ((k, v) : String × α).1 = k := rfl
      rw [hkk, if_neg (fun hk => hne hk.symm), if_neg (fun hk => hne hk.symm)]
      exact ih
    · rw [List.map_cons, if_neg hp, lookupList_cons, lookupList_cons]
      by_cases hk' : p.1 = k'
      · rw [if_pos hk', if_pos hk']
      · rw [if_neg hk', if_neg hk']
        exact ih

theorem lookupList_map_set_self {α : Type} (d : α) {l : List (String × α)}
    {k : String} (h : k ∈ keysList l) (v : α) :
    lookupList d (l.map (fun p => if p.1 = k then (k, v) else p)) k = v := by
  induction l with
  | nil => simp at h
  | cons p ps ih =>
    by_cases hp : p.1 = k
    · rw [List.map_cons, if_pos hp, lookupList_cons, if_pos rfl]
    · simp only [keysList_cons, List.mem_cons] at h
      rcases h with h | h
      · exact absurd h.symm hp
      · rw [List.map_cons, if_neg hp, lookupList_cons, if_neg hp]
        exact ih h

@[simp] theorem lookupList_setList_self {α : Type} (d : α) (l : List (String × α))
    (k : String) (v : α) : lookupList d (setList l k v) k = v := by
  unfold setList
  by_cases h : k ∈ keysList l
  · rw [if_pos h]
    exact lookupList_map_set_self d h v
  · rw [if_neg h, lookupList_append_right d h, lookupList_cons, if_pos rfl]

theorem lookupList_setList_ne {α : Type} (d : α) (l : List (String × α))
    {k k' : String} (hne : k' ≠ k) (v : α) :
    lookupList d (setList l k v) k' = lookupList d l k' := by
  unfold setList
  by_cases h : k ∈ keysList l
  · rw [if_pos h]
    exact lookupList_map_set_ne d l hne v
  · rw [if_neg h]
    by_cases h' : k' ∈ keysList l
    · exact lookupList_append_left d h' _
    · rw [lookupList_append_right d h', lookupList_cons,
        if_neg (fun hk => hne hk.symm), lookupList_nil,
        lookupList_eq_default_of_not_mem d h']

/-- Replacing a key's value does not change the key list. -/
theorem keysList_map_set {α : Type} (l : List (String × α)) (k : String) (v : α) :
    keysList (l.map (fun p => if p.1 = k then (k, v) else p)) = keysList l := by
  induction l with
  | nil => rfl
  | cons p ps ih =>
    by_cases hp : p.1 = k
    · rw [List.map_cons, if_pos hp, keysList_cons, keysList_cons, hp]
      rw [ih]
    · rw [List.map_cons, if_neg hp, keysList_cons, keysList_cons, ih]

theorem keysList_setList {α : Type} (l : List (String × α)) (k : String) (v : α) :
    keysList (setList l k v) =
      if k ∈ keysList l then keysList l else keysList l ++ [k] := by
  unfold setList
  by_cases h : k ∈ keysList l
  · rw [if_pos h, if_pos h, keysList_map_set]
  · rw [if_neg h, if_neg h, keysList_append, keysList_cons, keysList_nil]

theorem mem_keysList_setList {α : Type} (l : List (String × α)) (k k' : String)
    (v : α) : k' ∈ keysList (setList l k v) ↔ k' ∈ keysList l ∨ k' = k := by
  rw [keysList_setList]
  by_cases h : k ∈ keysList l
  · rw [if_pos h]
    constructor
    · exact Or.inl
    · rintro (hm | rfl)
      · exact hm
      · exact h
  · rw [if_neg h]
    simp

theorem nodup_keysList_setList {α : Type} {l : List (String × α)} (k : String)
    (v : α) (h : (keysList l).Nodup) : (keysList (setList l k v)).Nodup := by
  rw [keysList_setList]
  by_cases hm : k ∈ keysList l
  · rw [if_pos hm]; exact h
  · rw [if_neg hm]
    exact List.Nodup.append h (List.nodup_singleton k) (by simpa using hm)

theorem mem_setList {α : Type} {l : List (String × α)} {k : String} {v : α}
    {p : String × α} (h : p ∈ setList l k v) : p = (k, v) ∨ p ∈ l := by
  unfold setList at h
  by_cases hm : k ∈ keysList l
  · rw [if_pos hm] at h
    rcases List.mem_map.mp h with ⟨q, hq, hpq⟩
    by_cases hqk : q.1 = k
    · rw [if_pos hqk] at hpq; exact Or.inl hpq.symm
    · rw [if_neg hqk] at hpq; exact Or.inr (hpq ▸ hq)
  · rw [if_neg hm] at h
    rcases List.mem_append.mp h with h | h
    · exact Or.inr h
    · exact Or.inl (List.mem_singleton.mp h)

/-- When the written key is absent from the rest of the list, the
value-replacing map is the identity. -/
theorem map_set_eq_self_of_not_mem {α : Type} {l : List (String × α)} {k : String}
    (h : k ∉ keysList l) (v : α) :
    l.map (fun p => if p.1 = k then (k, v) else p) = l := by
  induction l with
  | nil => rfl
  | cons p ps ih =>
    simp only [keysList_cons, List.mem_cons, not_or] at h
    rw [List.map_cons, if_neg (fun hk => h.1 hk.symm), ih h.2]

theorem setList_cons_of_ne {α : Type} {p : String × α} {k : String}
    (hne : p.1 ≠ k) (ps : List (String × α)) (v : α) :
    setList (p :: ps) k v = p :: setList ps k v := by
  unfold setList
  by_cases h : k ∈ keysList ps
  · rw [if_pos (by simp [h]), if_pos h, List.map_cons, if_neg hne]
  · have hnot : k ∉ keysList (p :: ps) := by
      simp only [keysList_cons, List.mem_cons, not_or]
      exact ⟨fun hk => hne hk.symm, h⟩
    rw [if_neg hnot, if_neg h, List.cons_append]

theorem sumVals_setList {l : List (String × Int)} (h : (keysList l).Nodup)
    (k : String) (v : Int) :
    sumVals (setList l k v) = sumVals l + v - lookupList 0 l k := by
  induction l with
  | nil =>
    simp [setList, sumVals]
  | cons p ps ih =>
    rw [keysList_cons, List.nodup_cons] at h
    by_cases hp : p.1 = k
    · have hk : k ∉ keysList ps := hp ▸ h.1
      rw [setList, if_pos (by simp [hp]), List.map_cons, if_pos hp,
        map_set_eq_self_of_not_mem hk, lookupList_cons, if_pos hp]
      simp [sumVals]
      ring
    · rw [setList_cons_of_ne hp, lookupList_cons, if_neg hp]
      have : sumVals (p :: setList ps k v) = p.2 + sumVals (setList ps k v) := by
        simp [sumVals]
      rw [this, ih h.2]
      have : sumVals (p :: ps) = p.2 + sumVals ps := by simp [sumVals]
      rw [this]
      ring

/-! ## Nil-able Go maps -/

/-- A Go `map[string]α` value: `none` is a nil map. -/
def GoMap (α : Type) := Option (List (String × α))

instance {α : Type} [DecidableEq α] : DecidableEq (GoMap α) := by
  unfold GoMap; infer_instance

/-- A non-nil empty map (Go `make(map[string]α)`). -/
def goEmpty {α : Type} : GoMap α := some []

/-- Read from a Go map: a nil map and an absent key both read as the zero
value. -/
def goGet {α : Type} (d : α) (m : GoMap α) (k : String) : α :=
  match m with
  | none => d
  | some l => lookupList d l k

/-- Write to a Go map; writing to a nil map is a runtime panic, modelled as
`none`. -/
def goSet {α : Type} (m : GoMap α) (k : String) (v : α) : Option (GoMap α) :=
  match m with
  | none => none
  | some l => some (some (setList l k v))

/-- `len` of a Go map (0 for nil). -/
def goLen {α : Type} (m : GoMap α) : Nat :=
  match m with
  | none => 0
  | some l => l.length

/-- The entries a `range` over the map visits (none for nil). -/
def goEntries {α : Type} (m : GoMap α) : List (String × α) :=
  match m with
  | none => []
  | some l => l

/-- Go's two-result read: whether the key is present. -/
def goHasKey {α : Type} [DecidableEq α] (m : GoMap α) (k : String) : Bool :=
  decide (k ∈ keysList (goEntries m))

@[simp] theorem goEntries_some {α : Type} (l : List (String × α)) :
    goEntries (some l : GoMap α) = l := rfl

@[simp] theorem goEntries_none {α : Type} :
    goEntries (none : GoMap α) = [] := rfl

@[simp] theorem goGet_some {α : Type} (d : α) (l : List (String × α)) (k : String) :
    goGet d (some l : GoMap α) k = lookupList d l k := rfl

@[simp] theorem goGet_none {α : Type} (d : α) (k : String) :
    goGet d (none : GoMap α) k = d := rfl

@[simp] theorem goSet_some {α : Type} (l : List (String × α)) (k : String) (v : α) :
    goSet (some l : GoMap α) k v = some (some (setList l k v)) := rfl

@[simp] theorem goSet_none {α : Type} (k : String) (v : α) :
    goSet (none : GoMap α) k v = none := rfl

/-! ## Tokenizer

The Go source lower-cases the input with `strings.ToLower` and splits it with
`strings.FieldsFunc` on every rune that is neither `unicode.IsLetter` nor
`unicode.IsNumber`. -/

/-- Models Go `unicode.ToLower` (as applied rune-wise by `strings.ToLower`),
restricted to the Basic Latin and Latin-1 Supplement blocks: `A`–`Z` and
`À`–`Þ` (except `×`) map down by 32, everything else in these blocks is
unchanged. -/
def goToLower (c : Char) : Char :=
  if 65 ≤ c.toNat ∧ c.toNat ≤ 90 then Char.ofNat (c.toNat + 32)
  else if 192 ≤ c.toNat ∧ c.toNat ≤ 222 ∧ c.toNat ≠ 215 then Char.ofNat (c.toNat + 32)
  else c

/-- Models Go `unicode.IsLetter` (Unicode category L), restricted to the Basic
Latin and Latin-1 Supplement blocks: ASCII letters, `ª`, `µ`, `º`, and the
Latin-1 letters `À`–`ÿ` except `×` and `÷`. -/
def unicodeIsLetter (c : Char) : Bool :=
  decide ((65 ≤ c.toNat ∧ c.toNat ≤ 90) ∨ (97 ≤ c.toNat ∧ c.toNat ≤ 122) ∨
    c.toNat = 170 ∨ c.toNat = 181 ∨ c.toNat = 186 ∨
    (192 ≤ c.toNat ∧ c.toNat ≤ 214) ∨ (216 ≤ c.toNat ∧ c.toNat ≤ 246) ∨
    (248 ≤ c.toNat ∧ c.toNat ≤ 255))

/-- Models Go `unicode.IsNumber` (Unicode category N), restricted to the Basic
Latin and Latin-1 Supplement blocks: ASCII digits and `²`, `³`, `¹`, `¼`,
`½`, `¾`. -/
def unicodeIsNumber (c : Char) : Bool :=
  decide ((48 ≤ c.toNat ∧ c.toNat ≤ 57) ∨ c.toNat = 178 ∨ c.toNat = 179 ∨
    c.toNat = 185 ∨ (188 ≤ c.toNat ∧ c.toNat ≤ 190))

/-- The scanning loop of Go `strings.FieldsFunc`: `field` is the run of
non-separator characters read since the last separator. -/
def fieldsFuncAux (f : Char → Bool) : List Char → List Char → List (List Char)
  | field, [] => if field.isEmpty then [] else [field]
  | field, c :: cs =>
    if f c then
      if field.isEmpty then fieldsFuncAux f [] cs
      else field :: fieldsFuncAux f [] cs
    else fieldsFuncAux f (field ++ [c]) cs

/-- Models Go `strings.FieldsFunc`: the maximal runs of characters on which
`f` is false. -/
def fieldsFunc (f : Char → Bool) (s : List Char) : List (List Char) :=
  fieldsFuncAux f [] s

/-- Models `tokenize` from the source: lower-case the input, then split on
every rune that is neither a letter nor a number. -/
def tokenize (text : String) : List String :=
  let lower := text.toList.map goToLower
  (fieldsFunc (fun r => !(unicodeIsLetter r || unicodeIsNumber r)) lower).map String.mk

/-! ## Tokenizer facts -/

theorem modifyHead_nil_append {α : Type} (l : List (List α)) :
    l.modifyHead (fun x => [] ++ x) = l := by
  cases l <;> rfl

/-- The `FieldsFunc` scan, started with a partial field `field`, produces the
non-empty pieces of `splitOnP` with `field` glued onto the first piece. -/
theorem fieldsFuncAux_eq (f : Char → Bool) (s : List Char) :
    ∀ field : List Char,
      fieldsFuncAux f field s =
        ((s.splitOnP f).modifyHead (fun x => field ++ x)).filter
          (fun x => !x.isEmpty) := by
  induction s with
  | nil =>
    intro field
    rw [fieldsFuncAux, List.splitOnP_nil]
    by_cases h : field.isEmpty
    · rw [if_pos h]
      simp [List.modifyHead, List.filter, h]
    · rw [if_neg h]
      simp only [List.modifyHead, List.append_nil, List.filter]
      rw [show (!field.isEmpty) = true by simp [h]]
  | cons c cs ih =>
    intro field
    rw [fieldsFuncAux, List.splitOnP_cons]
    by_cases hc : f c
    · rw [if_pos hc, if_pos hc]
      simp only [List.modifyHead, List.filter, List.append_nil]
      by_cases h : field.isEmpty
      · rw [if_pos h, ih []]
        rw [modifyHead_nil_append]
        rw [show (!field.isEmpty) = false by simp [h]]
      · rw [if_neg h, ih []]
        rw [modifyHead_nil_append]
        rw [show (!field.isEmpty) = true by simp [h]]
    · rw [if_neg hc, if_neg hc, ih (field ++ [c])]
      obtain ⟨x, xs, hL⟩ := List.exists_cons_of_ne_nil (List.splitOnP_ne_nil f cs)
      rw [hL]
      simp only [List.modifyHead]
      rw [List.append_assoc]
      rfl

/-- `FieldsFunc` returns exactly the non-empty pieces of `splitOnP` (maximal
runs between separators; adjacent separators collapse). -/
theorem fieldsFunc_eq (f : Char → Bool) (s : List Char) :
    fieldsFunc f s = (s.splitOnP f).filter (fun x => !x.isEmpty) := by
  rw [fieldsFunc, fieldsFuncAux_eq f s []]
  rw [modifyHead_nil_append]

theorem ne_nil_of_mem_fieldsFunc {f : Char → Bool} {s : List Char}
    {x : List Char} (h : x ∈ fieldsFunc f s) : x ≠ [] := by
  rw [fieldsFunc_eq] at h
  have := List.of_mem_filter h
  simpa [List.isEmpty_iff] using this

theorem String_mk_ne_empty {l : List Char} (h : l ≠ []) : String.mk l ≠ "" := by
  intro hcontra
  exact h (congrArg String.data hcontra)

/-- Every token `tokenize` emits is a non-empty string. -/
theorem tokenize_ne_empty {text : String} {t : String} (h : t ∈ tokenize text) :
    t ≠ "" := by
  unfold tokenize at h
  rcases List.mem_map.mp h with ⟨x, hx, rfl⟩
  exact String_mk_ne_empty (ne_nil_of_mem_fieldsFunc hx)

/-! ## Data model -/

/-- Go `Document`: a labeled text sample. -/
structure Document where
  Text : String
  Label : String
deriving DecidableEq

/-- Go `NaiveBayesClassifier`: the mutable model state.  The vocabulary is a
Go `map[string]struct{}` (a set). -/
structure NaiveBayesClassifier where
  classDocCounts : GoMap Int
  classWordCounts : GoMap (GoMap Int)
  classTotalWords : GoMap Int
  vocabulary : GoMap Unit
  totalDocs : Int
deriving DecidableEq

/-- Go `NewNaiveBayesClassifier`: all four maps freshly made (non-nil, empty),
`totalDocs` zero. -/
def NewNaiveBayesClassifier : NaiveBayesClassifier :=
  { classDocCounts := goEmpty
    classWordCounts := goEmpty
    classTotalWords := goEmpty
    vocabulary := goEmpty
    totalDocs := 0 }

/-- Go `Reset`: replaces every field with its fresh empty value (state-passing
form of the in-place clear). -/
def NaiveBayesClassifier.Reset (_nb : NaiveBayesClassifier) : NaiveBayesClassifier :=
  NewNaiveBayesClassifier

/-- The per-token body of the `Train` loop: skip empty tokens, then
`vocabulary[token] = struct{}{}`, `classWordCounts[label][token]++`,
`classTotalWords[label]++`.  Each write panics (`none`) on a nil map. -/
def trainToken (label : String) (nb : NaiveBayesClassifier) (token : String) :
    Option NaiveBayesClassifier :=
  if token = "" then some nb
  else
    match goSet nb.vocabulary token () with
    | none => none
    | some voc =>
      let inner := goGet none nb.classWordCounts label
      match goSet inner token (goGet 0 inner token + 1) with
      | none => none
      | some inner' =>
        match goSet nb.classWordCounts label inner' with
        | none => none
        | some wc =>
          match goSet nb.classTotalWords label
              (goGet 0 nb.classTotalWords label + 1) with
          | none => none
          | some tw =>
            some { nb with vocabulary := voc, classWordCounts := wc,
                           classTotalWords := tw }

/-- Go `Train`: bump `totalDocs` and `classDocCounts[label]`, make the
per-label word-count map if the key is absent, then run the token loop.
A nil-map write panics, modelled as `none`. -/
def NaiveBayesClassifier.Train (nb : NaiveBayesClassifier) (text label : String) :
    Option NaiveBayesClassifier :=
  let nb1 := { nb with totalDocs := nb.totalDocs + 1 }
  match goSet nb1.classDocCounts label (goGet (0 : Int) nb1.classDocCounts label + 1) with
  | none => none
  | some dc =>
    let nb2 := { nb1 with classDocCounts := dc }
    match (if goHasKey nb2.classWordCounts label then some nb2.classWordCounts
           else goSet nb2.classWordCounts label goEmpty) with
    | none => none
    | some wc =>
      let nb3 := { nb2 with classWordCounts := wc }
      (tokenize text).foldlM (trainToken label) nb3

/-- Go `TrainBatch`: `Train` on every document in order. -/
def NaiveBayesClassifier.TrainBatch (nb : NaiveBayesClassifier)
    (docs : List Document) : Option NaiveBayesClassifier :=
  docs.foldlM (fun nb doc => nb.Train doc.Text doc.Label) nb

/-! ## Prediction -/

/-- Go `normalizeScores`: empty input gives the empty map; otherwise each
log-score is shifted by `bestScore` and exponentiated, and the values are
divided by their sum unless the sum is exactly zero. -/
noncomputable def normalizeScores (scores : List (String × ℝ)) (bestScore : ℝ) :
    List (String × ℝ) :=
  if scores.isEmpty then []
  else
    let normalized := scores.map (fun p => (p.1, Real.exp (p.2 - bestScore)))
    let sum := (normalized.map Prod.snd).sum
    if sum = 0 then normalized
    else normalized.map (fun p => (p.1, p.2 / sum))

/-- The raw log-score the `Predict` loop accumulates for one class entry:
the log prior plus, per non-empty token, the Laplace-smoothed log
likelihood. -/
noncomputable def classLogProb (nb : NaiveBayesClassifier) (tokens : List String)
    (cls : String) (docCount : Int) : ℝ :=
  tokens.foldl
    (fun lp token =>
      if token = "" then lp
      else lp + Real.log
        ((((goGet (0 : Int) (goGet none nb.classWordCounts cls) token : Int) : ℝ) + 1) /
          (((goGet (0 : Int) nb.classTotalWords cls : Int) : ℝ) + (goLen nb.vocabulary : ℝ))))
    (Real.log ((docCount : ℝ) / (nb.totalDocs : ℝ)))

/-- One step of the `Predict` loop over `classDocCounts`: skip zero-count
classes, record the raw score, and keep the strictly best (label, score) seen
so far.  The `Option ℝ` tracks Go's `bestScore := math.Inf(-1)` start: `none`
loses to every finite score. -/
noncomputable def predictStep (nb : NaiveBayesClassifier) (tokens : List String)
    (acc : List (String × ℝ) × String × Option ℝ) (entry : String × Int) :
    List (String × ℝ) × String × Option ℝ :=
  if entry.2 = 0 then acc
  else
    let logProb := classLogProb nb tokens entry.1 entry.2
    let better : Bool := match acc.2.2 with
      | none => true
      | some b => decide (b < logProb)
    if better then (setList acc.1 entry.1 logProb, entry.1, some logProb)
    else (setList acc.1 entry.1 logProb, acc.2.1, acc.2.2)

/-- The `Predict` loop over all entries of `classDocCounts`. -/
noncomputable def predictFold (nb : NaiveBayesClassifier) (tokens : List String) :
    List (String × ℝ) × String × Option ℝ :=
  (goEntries nb.classDocCounts).foldl (predictStep nb tokens) ([], "", none)

/-- Go `Predict`: tokenize, score every class with a non-zero document count,
and return the arg-max label together with the normalized distribution. -/
noncomputable def NaiveBayesClassifier.Predict (nb : NaiveBayesClassifier)
    (text : String) : String × List (String × ℝ) :=
  let tokens := tokenize text
  let acc := predictFold nb tokens
  (acc.2.1, normalizeScores acc.1 (acc.2.2.getD 0))

/-- `Predict` as a call on the receiver: the method only reads the state, so
the state it leaves behind is the unchanged receiver. -/
noncomputable def PredictCall (nb : NaiveBayesClassifier) (text : String) :
    (String × List (String × ℝ)) × NaiveBayesClassifier :=
  (nb.Predict text, nb)

/-! ## Evaluation -/

/-- Go `Metrics`: evaluation results over a labeled dataset. -/
structure Metrics where
  Total : Int
  Correct : Int
  Confusion : GoMap (GoMap Int)

/-- Go `Metrics.Accuracy`: `correct / total`, guarded to `0` when
`total == 0`. -/
noncomputable def Metrics.Accuracy (m : Metrics) : ℝ :=
  if m.Total = 0 then 0 else (m.Correct : ℝ) / (m.Total : ℝ)

/-- The per-document body of the `Evaluate` loop: predict, count a match, and
bump the `(actual, predicted)` confusion cell (making the inner map first if
absent).  The confusion maps are made locally by `Evaluate`, hence never nil,
so the accumulator carries their plain contents. -/
noncomputable def evaluateStep (nb : NaiveBayesClassifier)
    (acc : List (String × List (String × Int)) × Int) (doc : Document) :
    List (String × List (String × Int)) × Int :=
  let predicted := (nb.Predict doc.Text).1
  let correct := if predicted = doc.Label then acc.2 + 1 else acc.2
  let confusion :=
    if doc.Label ∈ keysList acc.1 then acc.1 else setList acc.1 doc.Label []
  let inner := lookupList [] confusion doc.Label
  (setList confusion doc.Label
      (setList inner predicted (lookupList 0 inner predicted + 1)),
    correct)

/-- Go `Evaluate`: run the classifier over every document and tabulate the
match count and the confusion matrix. -/
noncomputable def Evaluate (nb : NaiveBayesClassifier) (docs : List Document) :
    Metrics :=
  let acc := docs.foldl (evaluateStep nb) ([], 0)
  { Total := (docs.length : Int)
    Correct := acc.2
    Confusion := some (acc.1.map (fun p => (p.1, some p.2))) }

/-! ## Snapshot codec -/

/-- Go `Snapshot`: the flat serializable view of the model. -/
structure Snapshot where
  ClassDocCounts : GoMap Int
  ClassWordCounts : GoMap (GoMap Int)
  ClassTotalWords : GoMap Int
  Vocabulary : Option (List String)
  TotalDocs : Int
deriving DecidableEq

/-- Go `copyIntMap`: nil stays nil, otherwise an entry-for-entry copy. -/
def copyIntMap (src : GoMap Int) : GoMap Int :=
  match src with
  | none => none
  | some l => some l

/-- Go `copyNestedMap`: nil stays nil, otherwise each inner map is copied with
`copyIntMap`. -/
def copyNestedMap (src : GoMap (GoMap Int)) : GoMap (GoMap Int) :=
  match src with
  | none => none
  | some l => some (l.map (fun p => (p.1, copyIntMap p.2)))

/-- Go `sort.Strings`: sort lexicographically ascending. -/
def sortStrings (l : List String) : List String :=
  l.insertionSort (· ≤ ·)

/-- Go method `Snapshot`: deep-copy the four fields, emitting the vocabulary
as a sorted slice.  (Named `toSnapshot` here because the method shares its Go
name with the `Snapshot` type.) -/
def NaiveBayesClassifier.toSnapshot (nb : NaiveBayesClassifier) : Snapshot :=
  let vocab := sortStrings (keysList (goEntries nb.vocabulary))
  { ClassDocCounts := copyIntMap nb.classDocCounts
    ClassWordCounts := copyNestedMap nb.classWordCounts
    ClassTotalWords := copyIntMap nb.classTotalWords
    Vocabulary := some vocab
    TotalDocs := nb.totalDocs }

/-- Go `LoadSnapshot`: replace all state with deep copies of the snapshot's
contents.  The vocabulary is rebuilt as a freshly made (hence non-nil) set;
the three count maps keep nil-ness via the copy helpers. -/
def NaiveBayesClassifier.LoadSnapshot (_nb : NaiveBayesClassifier)
    (snapshot : Snapshot) : NaiveBayesClassifier :=
  { classDocCounts := copyIntMap snapshot.ClassDocCounts
    classWordCounts := copyNestedMap snapshot.ClassWordCounts
    classTotalWords := copyIntMap snapshot.ClassTotalWords
    vocabulary :=
      some ((snapshot.Vocabulary.getD []).foldl (fun v token => setList v token ()) [])
    totalDocs := snapshot.TotalDocs }

/-! ## The core's call interface (for the safety claim) -/

/-- One call to a core entry point. -/
inductive CoreCall where
  | train (text label : String)
  | trainBatch (docs : List Document)
  | reset
  | predict (text : String)
  | evaluate (docs : List Document)
  | snapshot
  | loadSnapshot (s : Snapshot)

/-- Run one core call against the state.  `Predict`, `Evaluate` and
`toSnapshot` are read-only total functions (they perform no map writes, so
they cannot panic) and leave the state unchanged; `Train`/`TrainBatch`
propagate a nil-map-write panic as `none`. -/
def runCall (nb : NaiveBayesClassifier) : CoreCall → Option NaiveBayesClassifier
  | .train t l => nb.Train t l
  | .trainBatch docs => nb.TrainBatch docs
  | .reset => some nb.Reset
  | .predict _ => some nb
  | .evaluate _ => some nb
  | .snapshot => some nb
  | .loadSnapshot s => some (nb.LoadSnapshot s)

/-- Run a sequence of core calls; `none` as soon as one panics. -/
def runCalls (nb : NaiveBayesClassifier) (calls : List CoreCall) :
    Option NaiveBayesClassifier :=
  calls.foldlM runCall nb

/-! ## More association-list facts -/

theorem lookupList_mem {α : Type} (d : α) {l : List (String × α)} {k : String}
    (h : k ∈ keysList l) : (k, lookupList d l k) ∈ l := by
  induction l with
  | nil => simp at h
  | cons p ps ih =>
    by_cases hp : p.1 = k
    · rw [lookupList_cons, if_pos hp, ← hp]
      exact List.mem_cons_self p ps
    · simp only [keysList_cons, List.mem_cons] at h
      rcases h with h | h
      · exact absurd h.symm hp
      · rw [lookupList_cons, if_neg hp]
        exact List.mem_cons_of_mem p (ih h)

theorem mem_setList_self {α : Type} (l : List (String × α)) (k : String) (v : α) :
    (k, v) ∈ setList l k v := by
  unfold setList
  by_cases h : k ∈ keysList l
  · rw [if_pos h]
    obtain ⟨p, hp, hpk⟩ := mem_keysList.mp h
    refine List.mem_map.mpr ⟨p, hp, ?_⟩
    rw [if_pos hpk]
  · rw [if_neg h]
    exact List.mem_append_right l (List.mem_singleton_self _)

theorem mem_setList_of_mem_ne {α : Type} {l : List (String × α)} {p : String × α}
    (hp : p ∈ l) {k : String} (hne : p.1 ≠ k) (v : α) : p ∈ setList l k v := by
  unfold setList
  by_cases h : k ∈ keysList l
  · rw [if_pos h]
    refine List.mem_map.mpr ⟨p, hp, ?_⟩
    rw [if_neg hne]
  · rw [if_neg h]
    exact List.mem_append_left _ hp

theorem lookupList_of_mem_nodup {α : Type} (d : α) {l : List (String × α)}
    (hnd : (keysList l).Nodup) {p : String × α} (hp : p ∈ l) :
    lookupList d l p.1 = p.2 := by
  induction l with
  | nil => simp at hp
  | cons q qs ih =>
    rw [keysList_cons, List.nodup_cons] at hnd
    rcases List.mem_cons.mp hp with rfl | hp'
    · rw [lookupList_cons, if_pos rfl]
    · rw [lookupList_cons]
      by_cases hq : q.1 = p.1
      · exact absurd (hq ▸ mem_keysList.mpr ⟨p, hp', rfl⟩) hnd.1
      · rw [if_neg hq]
        exact ih hnd.2 hp'

/-! ## Well-formedness (non-nil maps) -/

/-- All maps of the state are non-nil, including the per-class inner maps:
the shape every state reachable without loading a nil-bearing snapshot has.
On such states no `Train` write can hit a nil map. -/
@[reducible] def WellFormed (nb : NaiveBayesClassifier) : Prop :=
  nb.classDocCounts.isSome = true ∧
  nb.classWordCounts.isSome = true ∧
  nb.classTotalWords.isSome = true ∧
  nb.vocabulary.isSome = true ∧
  (∀ e ∈ goEntries nb.classWordCounts, e.2.isSome = true)

/-- The key lists of all maps of the state (inner ones included) have no
duplicates: automatic for real Go maps, an invariant of the embedding. -/
@[reducible] def NodupState (nb : NaiveBayesClassifier) : Prop :=
  (keysList (goEntries nb.classDocCounts)).Nodup ∧
  (keysList (goEntries nb.classWordCounts)).Nodup ∧
  (keysList (goEntries nb.classTotalWords)).Nodup ∧
  (keysList (goEntries nb.vocabulary)).Nodup ∧
  (∀ e ∈ goEntries nb.classWordCounts, (keysList (goEntries e.2)).Nodup)

theorem wellFormed_new : WellFormed NewNaiveBayesClassifier := by
  refine ⟨rfl, rfl, rfl, rfl, ?_⟩
  intro e he
  simp [NewNaiveBayesClassifier, goEmpty] at he

theorem nodupState_new : NodupState NewNaiveBayesClassifier := by
  refine ⟨List.nodup_nil, List.nodup_nil, List.nodup_nil, List.nodup_nil, ?_⟩
  intro e he
  simp [NewNaiveBayesClassifier, goEmpty] at he

/-! ## `Train` never panics on a well-formed state -/

theorem trainToken_some {label : String} {nb : NaiveBayesClassifier} (token : String)
    (hWF : WellFormed nb) (hmem : label ∈ keysList (goEntries nb.classWordCounts)) :
    ∃ nb', trainToken label nb token = some nb' ∧
      WellFormed nb' ∧
      label ∈ keysList (goEntries nb'.classWordCounts) ∧
      nb'.totalDocs = nb.totalDocs ∧
      nb'.classDocCounts = nb.classDocCounts ∧
      (∀ t, t ∈ keysList (goEntries nb.vocabulary) →
        t ∈ keysList (goEntries nb'.vocabulary)) := by
  obtain ⟨hdc, hwc, htw, hvoc, hinner⟩ := hWF
  by_cases htok : token = ""
  · exact ⟨nb, by simp [trainToken, htok], ⟨hdc, hwc, htw, hvoc, hinner⟩, hmem,
      rfl, rfl, fun t ht => ht⟩
  · cases hvc : nb.vocabulary with
    | none => rw [hvc] at hvoc; simp at hvoc
    | some v =>
      cases hwcv : nb.classWordCounts with
      | none => rw [hwcv] at hwc; simp at hwc
      | some wl =>
        cases htwv : nb.classTotalWords with
        | none => rw [htwv] at htw; simp at htw
        | some twl =>
          have hmem' : label ∈ keysList wl := by rw [hwcv] at hmem; exact hmem
          have hbind : (label, lookupList none wl label) ∈ wl :=
            lookupList_mem none hmem'
          have hsome : (lookupList none wl label).isSome = true := by
            have := hinner (label, lookupList none wl label)
              (by rw [hwcv]; exact hbind)
            exact this
          cases hiv : lookupList none wl label with
          | none => rw [hiv] at hsome; simp at hsome
          | some il =>
            refine ⟨{ nb with
                vocabulary := some (setList v token ()),
                classWordCounts := some (setList wl label
                  (some (setList il token (lookupList 0 il token + 1)))),
                classTotalWords := some (setList twl label
                  (lookupList 0 twl label + 1)) }, ?_, ?_, ?_, rfl, rfl, ?_⟩
            · simp [trainToken, htok, hvc, hwcv, htwv, hiv]
            · refine ⟨hdc, rfl, rfl, rfl, ?_⟩
              intro e he
              simp only [goEntries_some] at he
              rcases mem_setList he with rfl | he'
              · rfl
              · exact hinner e (by rw [hwcv]; exact he')
            · simp only [goEntries_some]
              exact (mem_keysList_setList _ _ _ _).mpr (Or.inr rfl)
            · intro t ht
              simp only [hvc, goEntries_some] at ht
              simp only [goEntries_some]
              exact (mem_keysList_setList _ _ _ _).mpr (Or.inl ht)

theorem foldlM_trainToken_some (label : String) (tokens : List String) :
    ∀ nb : NaiveBayesClassifier, WellFormed nb →
      label ∈ keysList (goEntries nb.classWordCounts) →
      ∃ nb', tokens.foldlM (trainToken label) nb = some nb' ∧
        WellFormed nb' ∧ label ∈ keysList (goEntries nb'.classWordCounts) ∧
        nb'.totalDocs = nb.totalDocs ∧ nb'.classDocCounts = nb.classDocCounts ∧
        (∀ t, t ∈ keysList (goEntries nb.vocabulary) →
          t ∈ keysList (goEntries nb'.vocabulary)) := by
  induction tokens with
  | nil =>
    intro nb h hm
    exact ⟨nb, rfl, h, hm, rfl, rfl, fun t ht => ht⟩
  | cons tok toks ih =>
    intro nb h hm
    obtain ⟨nb1, he, h1, hm1, htd1, hdc1, hvk1⟩ := trainToken_some tok h hm
    obtain ⟨nb', he', h', hm', htd', hdc', hvk'⟩ := ih nb1 h1 hm1
    refine ⟨nb', ?_, h', hm', by rw [htd', htd1], by rw [hdc', hdc1],
      fun t ht => hvk' t (hvk1 t ht)⟩
    rw [List.foldlM_cons, he]
    exact he'

theorem Train_some (nb : NaiveBayesClassifier) (text label : String)
    (h : WellFormed nb) :
    ∃ nb', nb.Train text label = some nb' ∧ WellFormed nb' ∧
      nb'.totalDocs = nb.totalDocs + 1 ∧
      goGet 0 nb'.classDocCounts label = goGet 0 nb.classDocCounts label + 1 ∧
      (∀ t, t ∈ keysList (goEntries nb.vocabulary) →
        t ∈ keysList (goEntries nb'.vocabulary)) := by
  obtain ⟨hdc, hwc, htw, hvoc, hinner⟩ := h
  cases hdcv : nb.classDocCounts with
  | none => rw [hdcv] at hdc; simp at hdc
  | some dl =>
    cases hwcv : nb.classWordCounts with
    | none => rw [hwcv] at hwc; simp at hwc
    | some wl =>
      by_cases hkey : label ∈ keysList wl
      · have h3 : WellFormed
            { classDocCounts := some (setList dl label (lookupList 0 dl label + 1))
              classWordCounts := some wl
              classTotalWords := nb.classTotalWords
              vocabulary := nb.vocabulary
              totalDocs := nb.totalDocs + 1 } := by
          refine ⟨rfl, rfl, htw, hvoc, ?_⟩
          intro e he
          exact hinner e (by rw [hwcv]; exact he)
        obtain ⟨nb', he', hWF', hm', htd', hdc', hvk'⟩ :=
          foldlM_trainToken_some label (tokenize text) _ h3
            (by simpa only [goEntries_some] using hkey)
        refine ⟨nb', ?_, hWF', by rw [htd'], ?_, ?_⟩
        · show nb.Train text label = some nb'
          unfold NaiveBayesClassifier.Train
          simp only [hdcv, hwcv, goGet_some, goSet_some, goHasKey, goEntries_some,
            hkey, decide_True, if_true]
          exact he'
        · rw [hdc']
          simp only [goGet_some, lookupList_setList_self]
        · intro t ht
          exact hvk' t ht
      · have h3 : WellFormed
            { classDocCounts := some (setList dl label (lookupList 0 dl label + 1))
              classWordCounts := some (setList wl label goEmpty)
              classTotalWords := nb.classTotalWords
              vocabulary := nb.vocabulary
              totalDocs := nb.totalDocs + 1 } := by
          refine ⟨rfl, rfl, htw, hvoc, ?_⟩
          intro e he
          simp only [goEntries_some] at he
          rcases mem_setList he with rfl | he'
          · rfl
          · exact hinner e (by rw [hwcv]; exact he')
        obtain ⟨nb', he', hWF', hm', htd', hdc', hvk'⟩ :=
          foldlM_trainToken_some label (tokenize text) _ h3
            (by
              simp only [goEntries_some]
              exact (mem_keysList_setList _ _ _ _).mpr (Or.inr rfl))
        refine ⟨nb', ?_, hWF', by rw [htd'], ?_, ?_⟩
        · show nb.Train text label = some nb'
          unfold NaiveBayesClassifier.Train
          simp only [hdcv, hwcv, goGet_some, goSet_some, goHasKey, goEntries_some,
            hkey, decide_False, if_false]
          exact he'
        · rw [hdc']
          simp only [goGet_some, lookupList_setList_self]
        · intro t ht
          exact hvk' t ht

theorem TrainBatch_some (docs : List Document) :
    ∀ nb : NaiveBayesClassifier, WellFormed nb →
      ∃ nb', nb.TrainBatch docs = some nb' ∧ WellFormed nb' := by
  induction docs with
  | nil => intro nb h; exact ⟨nb, rfl, h⟩
  | cons doc docs ih =>
    intro nb h
    obtain ⟨nb1, he1, h1, -, -, -⟩ := Train_some nb doc.Text doc.Label h
    obtain ⟨nb', he', h'⟩ := ih nb1 h1
    refine ⟨nb', ?_, h'⟩
    unfold NaiveBayesClassifier.TrainBatch at he' ⊢
    rw [List.foldlM_cons, he1]
    exact he'

/-! ## Snapshots and well-formedness -/

@[simp] theorem copyIntMap_eq (m : GoMap Int) : copyIntMap m = m := by
  cases m <;> rfl

@[simp] theorem copyNestedMap_eq (m : GoMap (GoMap Int)) : copyNestedMap m = m := by
  cases m with
  | none => rfl
  | some l => simp [copyNestedMap]

/-- A snapshot whose three count mappings (inner ones included) are non-nil:
the shape `toSnapshot` always produces.  Loading such a snapshot yields a
well-formed state. -/
@[reducible] def SnapWellFormed (s : Snapshot) : Prop :=
  s.ClassDocCounts.isSome = true ∧
  s.ClassWordCounts.isSome = true ∧
  s.ClassTotalWords.isSome = true ∧
  (∀ e ∈ goEntries s.ClassWordCounts, e.2.isSome = true)

theorem loadSnapshot_wellFormed {s : Snapshot} (hs : SnapWellFormed s)
    (nb : NaiveBayesClassifier) : WellFormed (nb.LoadSnapshot s) := by
  obtain ⟨h1, h2, h3, h4⟩ := hs
  refine ⟨by simpa [NaiveBayesClassifier.LoadSnapshot] using h1,
    by simpa [NaiveBayesClassifier.LoadSnapshot] using h2,
    by simpa [NaiveBayesClassifier.LoadSnapshot] using h3, rfl, ?_⟩
  intro e he
  simp only [NaiveBayesClassifier.LoadSnapshot, copyNestedMap_eq] at he
  exact h4 e he

theorem toSnapshot_wellFormed {nb : NaiveBayesClassifier} (h : WellFormed nb) :
    SnapWellFormed nb.toSnapshot := by
  obtain ⟨hdc, hwc, htw, hvoc, hinner⟩ := h
  refine ⟨by simpa [NaiveBayesClassifier.toSnapshot] using hdc,
    by simpa [NaiveBayesClassifier.toSnapshot] using hwc,
    by simpa [NaiveBayesClassifier.toSnapshot] using htw, ?_⟩
  intro e he
  simp only [NaiveBayesClassifier.toSnapshot, copyNestedMap_eq] at he
  exact hinner e he

/-- A call is benign when any snapshot it loads is well-formed (the only way
to smuggle a nil map into the state). -/
@[reducible] def callSnapOK : CoreCall → Prop
  | .loadSnapshot s => SnapWellFormed s
  | _ => True

theorem runCall_some {nb : NaiveBayesClassifier} {call : CoreCall}
    (h : WellFormed nb) (hc : callSnapOK call) :
    ∃ nb', runCall nb call = some nb' ∧ WellFormed nb' := by
  cases call with
  | train t l =>
    obtain ⟨nb', he, h', -, -, -⟩ := Train_some nb t l h
    exact ⟨nb', he, h'⟩
  | trainBatch docs => exact TrainBatch_some docs nb h
  | reset => exact ⟨NewNaiveBayesClassifier, rfl, wellFormed_new⟩
  | predict t => exact ⟨nb, rfl, h⟩
  | evaluate docs => exact ⟨nb, rfl, h⟩
  | snapshot => exact ⟨nb, rfl, h⟩
  | loadSnapshot s => exact ⟨nb.LoadSnapshot s, rfl, loadSnapshot_wellFormed hc nb⟩

theorem runCalls_some (calls : List CoreCall) :
    ∀ nb : NaiveBayesClassifier, WellFormed nb → (∀ c ∈ calls, callSnapOK c) →
      ∃ nb', runCalls nb calls = some nb' ∧ WellFormed nb' := by
  induction calls with
  | nil => intro nb h _; exact ⟨nb, rfl, h⟩
  | cons c cs ih =>
    intro nb h hc
    obtain ⟨nb1, he1, h1⟩ := runCall_some h (hc c (List.mem_cons_self c cs))
    obtain ⟨nb', he', h'⟩ := ih nb1 h1 (fun d hd => hc d (List.mem_cons_of_mem c hd))
    refine ⟨nb', ?_, h'⟩
    unfold runCalls at he' ⊢
    rw [List.foldlM_cons, he1]
    exact he'

/-! ## The counting invariants (claim C7) -/

/-- The spec's model invariants: non-negative document counts, `totalDocs`
equal to the sum of document counts, each `classTotalWords[L]` equal to the
sum of `classWordCounts[L]`, and the vocabulary equal to the union of the
inner key sets. -/
def CountsConsistent (nb : NaiveBayesClassifier) : Prop :=
  (∀ e ∈ goEntries nb.classDocCounts, 0 ≤ e.2) ∧
  nb.totalDocs = sumVals (goEntries nb.classDocCounts) ∧
  (∀ L : String, goGet 0 nb.classTotalWords L =
    sumVals (goEntries (goGet none nb.classWordCounts L))) ∧
  (∀ t : String, t ∈ keysList (goEntries nb.vocabulary) ↔
    ∃ e ∈ goEntries nb.classWordCounts, t ∈ keysList (goEntries e.2))

theorem countsConsistent_new : CountsConsistent NewNaiveBayesClassifier := by
  refine ⟨?_, rfl, fun L => rfl, ?_⟩
  · intro e he
    simp [NewNaiveBayesClassifier, goEmpty] at he
  · intro t
    simp [NewNaiveBayesClassifier, goEmpty]

theorem trainToken_invariant {label : String} {nb : NaiveBayesClassifier}
    (token : String) (hWF : WellFormed nb) (hND : NodupState nb)
    (hCC : CountsConsistent nb)
    (hmem : label ∈ keysList (goEntries nb.classWordCounts)) :
    ∃ nb', trainToken label nb token = some nb' ∧
      WellFormed nb' ∧ NodupState nb' ∧ CountsConsistent nb' ∧
      label ∈ keysList (goEntries nb'.classWordCounts) ∧
      nb'.classDocCounts = nb.classDocCounts ∧ nb'.totalDocs = nb.totalDocs := by
  obtain ⟨hdc, hwc, htw, hvoc, hinner⟩ := hWF
  obtain ⟨nd1, nd2, nd3, nd4, nd5⟩ := hND
  obtain ⟨cc1, cc2, cc3, cc4⟩ := hCC
  by_cases htok : token = ""
  · exact ⟨nb, by simp [trainToken, htok], ⟨hdc, hwc, htw, hvoc, hinner⟩,
      ⟨nd1, nd2, nd3, nd4, nd5⟩, ⟨cc1, cc2, cc3, cc4⟩, hmem, rfl, rfl⟩
  · cases hvc : nb.vocabulary with
    | none => rw [hvc] at hvoc; simp at hvoc
    | some v =>
      cases hwcv : nb.classWordCounts with
      | none => rw [hwcv] at hwc; simp at hwc
      | some wl =>
        cases htwv : nb.classTotalWords with
        | none => rw [htwv] at htw; simp at htw
        | some twl =>
          have hmem' : label ∈ keysList wl := by rw [hwcv] at hmem; exact hmem
          have hbindmem : (label, lookupList none wl label) ∈ wl :=
            lookupList_mem none hmem'
          have hsome : (lookupList none wl label).isSome = true := by
            have := hinner (label, lookupList none wl label)
              (by rw [hwcv]; exact hbindmem)
            exact this
          cases hiv : lookupList none wl label with
          | none => rw [hiv] at hsome; simp at hsome
          | some il =>
            have hilmem : (label, (some il : GoMap Int)) ∈ wl := by
              rw [← hiv]; exact hbindmem
            have hilnd : (keysList il).Nodup := by
              have := nd5 (label, (some il : GoMap Int)) (by rw [hwcv]; exact hilmem)
              simpa using this
            refine ⟨{
                classDocCounts := nb.classDocCounts
                classWordCounts := some (setList wl label
                  (some (setList il token (lookupList 0 il token + 1))))
                classTotalWords := some (setList twl label
                  (lookupList 0 twl label + 1))
                vocabulary := some (setList v token ())
                totalDocs := nb.totalDocs }, ?_, ?_, ?_, ?_, ?_, rfl, rfl⟩
            · simp [trainToken, htok, hvc, hwcv, htwv, hiv]
            · refine ⟨hdc, rfl, rfl, rfl, ?_⟩
              intro e he
              simp only [goEntries_some] at he
              rcases mem_setList he with rfl | he'
              · rfl
              · exact hinner e (by rw [hwcv]; exact he')
            · refine ⟨nd1, ?_, ?_, ?_, ?_⟩
              · simp only [goEntries_some]
                exact nodup_keysList_setList _ _ (by rw [hwcv] at nd2; simpa using nd2)
              · simp only [goEntries_some]
                exact nodup_keysList_setList _ _ (by rw [htwv] at nd3; simpa using nd3)
              · simp only [goEntries_some]
                exact nodup_keysList_setList _ _ (by rw [hvc] at nd4; simpa using nd4)
              · intro e he
                simp only [goEntries_some] at he
                rcases mem_setList he with rfl | he'
                · simp only [goEntries_some]
                  exact nodup_keysList_setList _ _ hilnd
                · exact nd5 e (by rw [hwcv]; exact he')
            · refine ⟨cc1, cc2, ?_, ?_⟩
              · intro L
                by_cases hL : L = label
                · subst hL
                  simp only [goGet_some, goEntries_some, lookupList_setList_self]
                  have hold := cc3 L
                  rw [htwv, hwcv] at hold
                  simp only [goGet_some, goEntries_some] at hold
                  rw [hiv] at hold
                  simp only [goEntries_some] at hold
                  rw [sumVals_setList hilnd]
                  rw [hold]
                  ring
                · have hne : L ≠ label := hL
                  simp only [goGet_some, goEntries_some]
                  rw [lookupList_setList_ne _ _ hne, lookupList_setList_ne _ _ hne]
                  have hold := cc3 L
                  rw [htwv, hwcv] at hold
                  simpa using hold
              · intro t
                simp only [goEntries_some, mem_keysList_setList]
                have hold := cc4 t
                rw [hvc, hwcv] at hold
                simp only [goEntries_some] at hold
                constructor
                · rintro (ht | rfl)
                  · rcases hold.mp ht with ⟨e, he, hte⟩
                    by_cases heL : e.1 = label
                    · have : e.2 = some il := by
                        have := lookupList_of_mem_nodup (none : GoMap Int)
                          (by rw [hwcv] at nd2; simpa using nd2) he
                        rw [heL, hiv] at this
                        exact this.symm
                      refine ⟨(label, some (setList il token (lookupList 0 il token + 1))),
                        mem_setList_self _ _ _, ?_⟩
                      simp only [goEntries_some]
                      rw [this] at hte
                      simp only [goEntries_some] at hte
                      exact (mem_keysList_setList _ _ _ _).mpr (Or.inl hte)
                    · exact ⟨e, mem_setList_of_mem_ne he heL _, hte⟩
                  · refine ⟨(label, some (setList il t (lookupList 0 il t + 1))),
                      mem_setList_self _ _ _, ?_⟩
                    simp only [goEntries_some]
                    exact (mem_keysList_setList _ _ _ _).mpr (Or.inr rfl)
                · rintro ⟨e, he, hte⟩
                  rcases mem_setList he with rfl | he'
                  · simp only [goEntries_some, mem_keysList_setList] at hte
                    rcases hte with hte | rfl
                    · exact Or.inl (hold.mpr ⟨(label, some il), hilmem, by simpa using hte⟩)
                    · exact Or.inr rfl
                  · exact Or.inl (hold.mpr ⟨e, he', hte⟩)
            · simp only [goEntries_some]
              exact (mem_keysList_setList _ _ _ _).mpr (Or.inr rfl)

theorem foldlM_trainToken_invariant (label : String) (tokens : List String) :
    ∀ nb : NaiveBayesClassifier, WellFormed nb → NodupState nb →
      CountsConsistent nb → label ∈ keysList (goEntries nb.classWordCounts) →
      ∃ nb', tokens.foldlM (trainToken label) nb = some nb' ∧
        WellFormed nb' ∧ NodupState nb' ∧ CountsConsistent nb' ∧
        nb'.classDocCounts = nb.classDocCounts ∧ nb'.totalDocs = nb.totalDocs := by
  induction tokens with
  | nil =>
    intro nb h1 h2 h3 _
    exact ⟨nb, rfl, h1, h2, h3, rfl, rfl⟩
  | cons tok toks ih =>
    intro nb h1 h2 h3 hm
    obtain ⟨nb1, he1, hw1, hn1, hc1, hm1, hdc1, htd1⟩ :=
      trainToken_invariant tok h1 h2 h3 hm
    obtain ⟨nb', he', hw', hn', hc', hdc', htd'⟩ := ih nb1 hw1 hn1 hc1 hm1
    refine ⟨nb', ?_, hw', hn', hc', by rw [hdc', hdc1], by rw [htd', htd1]⟩
    rw [List.foldlM_cons, he1]
    exact he'

theorem Train_invariant (nb : NaiveBayesClassifier) (text label : String)
    (h1 : WellFormed nb) (h2 : NodupState nb) (h3 : CountsConsistent nb) :
    ∃ nb', nb.Train text label = some nb' ∧
      WellFormed nb' ∧ NodupState nb' ∧ CountsConsistent nb' := by
  obtain ⟨hdc, hwc, htw, hvoc, hinner⟩ := h1
  obtain ⟨nd1, nd2, nd3, nd4, nd5⟩ := h2
  obtain ⟨cc1, cc2, cc3, cc4⟩ := h3
  cases hdcv : nb.classDocCounts with
  | none => rw [hdcv] at hdc; simp at hdc
  | some dl =>
    cases hwcv : nb.classWordCounts with
    | none => rw [hwcv] at hwc; simp at hwc
    | some wl =>
      have hdlnd : (keysList dl).Nodup := by rw [hdcv] at nd1; simpa using nd1
      have hlknn : (0 : Int) ≤ lookupList 0 dl label := by
        by_cases hk : label ∈ keysList dl
        · have := cc1 (label, lookupList 0 dl label) (by rw [hdcv]; exact lookupList_mem 0 hk)
          exact this
        · rw [lookupList_eq_default_of_not_mem 0 hk]
      have hdc' : ∀ e ∈ setList dl label (lookupList 0 dl label + 1), (0 : Int) ≤ e.2 := by
        intro e he
        rcases mem_setList he with rfl | he'
        · exact le_trans hlknn (by omega)
        · exact cc1 e (by rw [hdcv]; exact he')
      have hsum' : nb.totalDocs + 1 =
          sumVals (setList dl label (lookupList 0 dl label + 1)) := by
        rw [sumVals_setList hdlnd]
        rw [cc2, hdcv]
        simp only [goEntries_some]
        ring
      by_cases hkey : label ∈ keysList wl
      · have hW : WellFormed
            { classDocCounts := some (setList dl label (lookupList 0 dl label + 1))
              classWordCounts := some wl
              classTotalWords := nb.classTotalWords
              vocabulary := nb.vocabulary
              totalDocs := nb.totalDocs + 1 } := by
          refine ⟨rfl, rfl, htw, hvoc, ?_⟩
          intro e he
          exact hinner e (by rw [hwcv]; exact he)
        have hN : NodupState
            { classDocCounts := some (setList dl label (lookupList 0 dl label + 1))
              classWordCounts := some wl
              classTotalWords := nb.classTotalWords
              vocabulary := nb.vocabulary
              totalDocs := nb.totalDocs + 1 } := by
          refine ⟨?_, by rw [hwcv] at nd2; simpa using nd2, nd3, nd4, ?_⟩
          · simp only [goEntries_some]
            exact nodup_keysList_setList _ _ hdlnd
          · intro e he
            exact nd5 e (by rw [hwcv]; exact he)
        have hC : CountsConsistent
            { classDocCounts := some (setList dl label (lookupList 0 dl label + 1))
              classWordCounts := some wl
              classTotalWords := nb.classTotalWords
              vocabulary := nb.vocabulary
              totalDocs := nb.totalDocs + 1 } := by
          refine ⟨?_, ?_, ?_, ?_⟩
          · intro e he
            simp only [goEntries_some] at he
            exact hdc' e he
          · simp only [goEntries_some]
            exact hsum'
          · intro L
            have := cc3 L
            rw [hwcv] at this
            exact this
          · intro t
            have := cc4 t
            rw [hwcv] at this
            exact this
        obtain ⟨nb', he', hw', hn', hc', -, -⟩ :=
          foldlM_trainToken_invariant label (tokenize text) _ hW hN hC
            (by simpa only [goEntries_some] using hkey)
        refine ⟨nb', ?_, hw', hn', hc'⟩
        unfold NaiveBayesClassifier.Train
        simp only [hdcv, hwcv, goGet_some, goSet_some, goHasKey, goEntries_some,
          hkey, decide_True, if_true]
        exact he'
      · have hW : WellFormed
            { classDocCounts := some (setList dl label (lookupList 0 dl label + 1))
              classWordCounts := some (setList wl label goEmpty)
              classTotalWords := nb.classTotalWords
              vocabulary := nb.vocabulary
              totalDocs := nb.totalDocs + 1 } := by
          refine ⟨rfl, rfl, htw, hvoc, ?_⟩
          intro e he
          simp only [goEntries_some] at he
          rcases mem_setList he with rfl | he'
          · rfl
          · exact hinner e (by rw [hwcv]; exact he')
        have hN : NodupState
            { classDocCounts := some (setList dl label (lookupList 0 dl label + 1))
              classWordCounts := some (setList wl label goEmpty)
              classTotalWords := nb.classTotalWords
              vocabulary := nb.vocabulary
              totalDocs := nb.totalDocs + 1 } := by
          refine ⟨?_, ?_, nd3, nd4, ?_⟩
          · simp only [goEntries_some]
            exact nodup_keysList_setList _ _ hdlnd
          · simp only [goEntries_some]
            exact nodup_keysList_setList _ _ (by rw [hwcv] at nd2; simpa using nd2)
          · intro e he
            simp only [goEntries_some] at he
            rcases mem_setList he with rfl | he'
            · exact List.nodup_nil
            · exact nd5 e (by rw [hwcv]; exact he')
        have hC : CountsConsistent
            { classDocCounts := some (setList dl label (lookupList 0 dl label + 1))
              classWordCounts := some (setList wl label goEmpty)
              classTotalWords := nb.classTotalWords
              vocabulary := nb.vocabulary
              totalDocs := nb.totalDocs + 1 } := by
          refine ⟨?_, ?_, ?_, ?_⟩
          · intro e he
            simp only [goEntries_some] at he
            exact hdc' e he
          · simp only [goEntries_some]
            exact hsum'
          · intro L
            by_cases hL : L = label
            · subst hL
              simp only [goGet_some, goEntries_some, lookupList_setList_self]
              have hold := cc3 L
              rw [hwcv] at hold
              simp only [goGet_some, goEntries_some] at hold
              rw [lookupList_eq_default_of_not_mem none hkey] at hold
              simp only [goEntries_none] at hold
              rw [hold]
              rfl
            · have hne : L ≠ label := hL
              simp only [goGet_some, goEntries_some]
              rw [lookupList_setList_ne _ _ hne]
              have hold := cc3 L
              rw [hwcv] at hold
              exact hold
          · intro t
            have hold := cc4 t
            rw [hwcv] at hold
            simp only [goEntries_some] at hold ⊢
            rw [hold]
            constructor
            · rintro ⟨e, he, hte⟩
              have : e.1 ≠ label := by
                intro hcontra
                exact hkey (hcontra ▸ mem_keysList.mpr ⟨e, he, rfl⟩)
              exact ⟨e, mem_setList_of_mem_ne he this _, hte⟩
            · rintro ⟨e, he, hte⟩
              rcases mem_setList he with rfl | he'
              · simp [goEmpty] at hte
              · exact ⟨e, he', hte⟩
        obtain ⟨nb', he', hw', hn', hc', -, -⟩ :=
          foldlM_trainToken_invariant label (tokenize text) _ hW hN hC
            (by
              simp only [goEntries_some]
              exact (mem_keysList_setList _ _ _ _).mpr (Or.inr rfl))
        refine ⟨nb', ?_, hw', hn', hc'⟩
        unfold NaiveBayesClassifier.Train
        simp only [hdcv, hwcv, goGet_some, goSet_some, goHasKey, goEntries_some,
          hkey, decide_False, if_false]
        exact he'

theorem TrainBatch_invariant (docs : List Document) :
    ∀ nb : NaiveBayesClassifier, WellFormed nb → NodupState nb →
      CountsConsistent nb →
      ∃ nb', nb.TrainBatch docs = some nb' ∧
        WellFormed nb' ∧ NodupState nb' ∧ CountsConsistent nb' := by
  induction docs with
  | nil => intro nb h1 h2 h3; exact ⟨nb, rfl, h1, h2, h3⟩
  | cons doc docs ih =>
    intro nb h1 h2 h3
    obtain ⟨nb1, he1, hw1, hn1, hc1⟩ := Train_invariant nb doc.Text doc.Label h1 h2 h3
    obtain ⟨nb', he', hw', hn', hc'⟩ := ih nb1 hw1 hn1 hc1
    refine ⟨nb', ?_, hw', hn', hc'⟩
    unfold NaiveBayesClassifier.TrainBatch at he' ⊢
    rw [List.foldlM_cons, he1]
    exact he'

/-! ## States reachable by training -/

/-- The states reachable from the empty classifier by `Train`, `TrainBatch`
and `Reset` calls (a panicking call reaches no state). -/
inductive Reachable : NaiveBayesClassifier → Prop where
  | new : Reachable NewNaiveBayesClassifier
  | train {nb nb' : NaiveBayesClassifier} {text label : String} :
      Reachable nb → nb.Train text label = some nb' → Reachable nb'
  | trainBatch {nb nb' : NaiveBayesClassifier} {docs : List Document} :
      Reachable nb → nb.TrainBatch docs = some nb' → Reachable nb'
  | reset {nb : NaiveBayesClassifier} : Reachable nb → Reachable nb.Reset

theorem reachable_invariant {nb : NaiveBayesClassifier} (h : Reachable nb) :
    WellFormed nb ∧ NodupState nb ∧ CountsConsistent nb := by
  induction h with
  | new => exact ⟨wellFormed_new, nodupState_new, countsConsistent_new⟩
  | train hr he ih =>
    obtain ⟨w, n, c⟩ := ih
    obtain ⟨nb2, he2, w2, n2, c2⟩ := Train_invariant _ _ _ w n c
    rw [he] at he2
    obtain rfl := Option.some.inj he2
    exact ⟨w2, n2, c2⟩
  | trainBatch hr he ih =>
    obtain ⟨w, n, c⟩ := ih
    obtain ⟨nb2, he2, w2, n2, c2⟩ := TrainBatch_invariant _ _ w n c
    rw [he] at he2
    obtain rfl := Option.some.inj he2
    exact ⟨w2, n2, c2⟩
  | reset hr ih =>
    exact ⟨wellFormed_new, nodupState_new, countsConsistent_new⟩

/-! ## Characterizing the prediction loop -/

theorem foldl_add_if (f : String → ℝ) :
    ∀ (tokens : List String) (init : ℝ), (∀ t ∈ tokens, t ≠ "") →
      tokens.foldl (fun lp token => if token = "" then lp else lp + f token) init =
        init + (tokens.map f).sum := by
  intro tokens
  induction tokens with
  | nil => intro init _; simp
  | cons tok toks ih =>
    intro init h
    have htok : tok ≠ "" := h tok (List.mem_cons_self tok toks)
    rw [List.foldl_cons, if_neg htok, List.map_cons, List.sum_cons,
      ih (init + f tok) (fun t ht => h t (List.mem_cons_of_mem tok ht))]
    ring

/-- The loop-accumulated log-score equals the log prior plus the sum of the
per-token smoothed log likelihoods, provided no token is empty. -/
theorem classLogProb_eq (nb : NaiveBayesClassifier) (tokens : List String)
    (cls : String) (docCount : Int) (hne : ∀ t ∈ tokens, t ≠ "") :
    classLogProb nb tokens cls docCount =
      Real.log ((docCount : ℝ) / (nb.totalDocs : ℝ)) +
      (tokens.map (fun token => Real.log
        ((((goGet 0 (goGet none nb.classWordCounts cls) token : Int) : ℝ) + 1) /
          (((goGet 0 nb.classTotalWords cls : Int) : ℝ) +
            (goLen nb.vocabulary : ℝ))))).sum := by
  unfold classLogProb
  exact foldl_add_if _ tokens _ hne

theorem keysList_map_snd {α β : Type} (l : List (String × α)) (f : String × α → β) :
    keysList (l.map (fun e => (e.1, f e))) = keysList l := by
  induction l with
  | nil => rfl
  | cons p ps ih => simp [keysList] at ih ⊢

theorem predictFold_go_scores (nb : NaiveBayesClassifier) (tokens : List String) :
    ∀ (entries : List (String × Int)) (scores : List (String × ℝ))
      (label : String) (best : Option ℝ),
      (keysList entries).Nodup →
      (∀ e ∈ entries, e.1 ∉ keysList scores) →
      (entries.foldl (predictStep nb tokens) (scores, label, best)).1 =
        scores ++ (entries.filter (fun e => decide (e.2 ≠ 0))).map
          (fun e => (e.1, classLogProb nb tokens e.1 e.2)) := by
  intro entries
  induction entries with
  | nil => intro scores label best _ _; simp
  | cons e rest ih =>
    intro scores label best hnd hnotin
    rw [keysList_cons, List.nodup_cons] at hnd
    by_cases he0 : e.2 = 0
    · rw [List.foldl_cons]
      have hstep : predictStep nb tokens (scores, label, best) e =
          (scores, label, best) := by
        simp [predictStep, he0]
      rw [hstep, List.filter_cons_of_neg (by simp [he0])]
      exact ih scores label best hnd.2
        (fun d hd => hnotin d (List.mem_cons_of_mem e hd))
    · have hsc : e.1 ∉ keysList scores := hnotin e (List.mem_cons_self e rest)
      have hset : setList scores e.1 (classLogProb nb tokens e.1 e.2) =
          scores ++ [(e.1, classLogProb nb tokens e.1 e.2)] :=
        setList_of_not_mem hsc _
      have hnotin' : ∀ d ∈ rest,
          d.1 ∉ keysList (scores ++ [(e.1, classLogProb nb tokens e.1 e.2)]) := by
        intro d hd
        rw [keysList_append]
        intro hmem
        rcases List.mem_append.mp hmem with hm | hm
        · exact hnotin d (List.mem_cons_of_mem e hd) hm
        · simp only [keysList_cons, keysList_nil, List.mem_singleton] at hm
          exact hnd.1 (hm ▸ mem_keysList.mpr ⟨d, hd, rfl⟩)
      rw [List.foldl_cons, List.filter_cons_of_pos (by simp [he0])]
      have hstep : (predictStep nb tokens (scores, label, best) e).1 =
          scores ++ [(e.1, classLogProb nb tokens e.1 e.2)] := by
        simp only [predictStep, if_neg he0]
        cases best with
        | none => simp [hset]
        | some b =>
          by_cases hb : b < classLogProb nb tokens e.1 e.2
          · simp [hb, hset]
          · simp [hb, hset]
      cases hps : predictStep nb tokens (scores, label, best) e with
      | mk scores' rest' =>
        obtain ⟨label', best'⟩ := rest'
        have hscores' : scores' = scores ++ [(e.1, classLogProb nb tokens e.1 e.2)] := by
          have := hstep
          rw [hps] at this
          exact this
        rw [ih scores' label' best' hnd.2 (hscores' ▸ hnotin')]
        rw [hscores', List.map_cons, List.append_assoc]
        rfl

/-- Invariant of the best-so-far tracking: when a best score exists it is a
recorded score of the best label and bounds every recorded score. -/
def BestInv (scores : List (String × ℝ)) (label : String) (best : Option ℝ) :
    Prop :=
  match best with
  | none => scores = []
  | some b => (label, b) ∈ scores ∧ ∀ p ∈ scores, p.2 ≤ b

theorem predictFold_go_best (nb : NaiveBayesClassifier) (tokens : List String) :
    ∀ (entries : List (String × Int)) (scores : List (String × ℝ))
      (label : String) (best : Option ℝ),
      (keysList entries).Nodup →
      (∀ e ∈ entries, e.1 ∉ keysList scores) →
      BestInv scores label best →
      BestInv (entries.foldl (predictStep nb tokens) (scores, label, best)).1
        (entries.foldl (predictStep nb tokens) (scores, label, best)).2.1
        (entries.foldl (predictStep nb tokens) (scores, label, best)).2.2 := by
  intro entries
  induction entries with
  | nil => intro scores label best _ _ hinv; exact hinv
  | cons e rest ih =>
    intro scores label best hnd hnotin hinv
    rw [keysList_cons, List.nodup_cons] at hnd
    by_cases he0 : e.2 = 0
    · rw [List.foldl_cons]
      have hstep : predictStep nb tokens (scores, label, best) e =
          (scores, label, best) := by
        simp [predictStep, he0]
      rw [hstep]
      exact ih scores label best hnd.2
        (fun d hd => hnotin d (List.mem_cons_of_mem e hd)) hinv
    · have hsc : e.1 ∉ keysList scores := hnotin e (List.mem_cons_self e rest)
      have hset : setList scores e.1 (classLogProb nb tokens e.1 e.2) =
          scores ++ [(e.1, classLogProb nb tokens e.1 e.2)] :=
        setList_of_not_mem hsc _
      have hnotin' : ∀ d ∈ rest,
          d.1 ∉ keysList (scores ++ [(e.1, classLogProb nb tokens e.1 e.2)]) := by
        intro d hd
        rw [keysList_append]
        intro hmem
        rcases List.mem_append.mp hmem with hm | hm
        · exact hnotin d (List.mem_cons_of_mem e hd) hm
        · simp only [keysList_cons, keysList_nil, List.mem_singleton] at hm
          exact hnd.1 (hm ▸ mem_keysList.mpr ⟨d, hd, rfl⟩)
      rw [List.foldl_cons]
      cases best with
      | none =>
        have hscores : scores = [] := hinv
        subst hscores
        have hstep : predictStep nb tokens ([], label, none) e =
            ([(e.1, classLogProb nb tokens e.1 e.2)], e.1,
              some (classLogProb nb tokens e.1 e.2)) := by
          simp [predictStep, he0, setList]
        rw [hstep]
        refine ih _ _ _ hnd.2 (by simpa using hnotin') ?_
        exact ⟨List.mem_singleton_self _, by
          intro p hp
          rw [List.mem_singleton.mp hp]⟩
      | some b =>
        obtain ⟨hbmem, hbound⟩ := hinv
        by_cases hb : b < classLogProb nb tokens e.1 e.2
        · have hstep : predictStep nb tokens (scores, label, some b) e =
              (scores ++ [(e.1, classLogProb nb tokens e.1 e.2)], e.1,
                some (classLogProb nb tokens e.1 e.2)) := by
            simp [predictStep, he0, hb, hset]
          rw [hstep]
          refine ih _ _ _ hnd.2 hnotin' ?_
          refine ⟨List.mem_append_right _ (List.mem_singleton_self _), ?_⟩
          intro p hp
          rcases List.mem_append.mp hp with hp' | hp'
          · exact le_trans (hbound p hp') (le_of_lt hb)
          · rw [List.mem_singleton.mp hp']
        · have hstep : predictStep nb tokens (scores, label, some b) e =
              (scores ++ [(e.1, classLogProb nb tokens e.1 e.2)], label, some b) := by
            simp [predictStep, he0, hb, hset]
          rw [hstep]
          refine ih _ _ _ hnd.2 hnotin' ?_
          refine ⟨List.mem_append_left _ hbmem, ?_⟩
          intro p hp
          rcases List.mem_append.mp hp with hp' | hp'
          · exact hbound p hp'
          · rw [List.mem_singleton.mp hp']
            exact le_of_not_lt hb

theorem predictFold_scores (nb : NaiveBayesClassifier) (tokens : List String)
    (hnd : (keysList (goEntries nb.classDocCounts)).Nodup) :
    (predictFold nb tokens).1 =
      ((goEntries nb.classDocCounts).filter (fun e => decide (e.2 ≠ 0))).map
        (fun e => (e.1, classLogProb nb tokens e.1 e.2)) := by
  unfold predictFold
  rw [predictFold_go_scores nb tokens _ [] "" none hnd (by simp)]
  simp

theorem predictFold_best (nb : NaiveBayesClassifier) (tokens : List String)
    (hnd : (keysList (goEntries nb.classDocCounts)).Nodup) :
    BestInv (predictFold nb tokens).1 (predictFold nb tokens).2.1
      (predictFold nb tokens).2.2 := by
  unfold predictFold
  exact predictFold_go_best nb tokens _ [] "" none hnd (by simp) rfl

theorem predictFold_all_zero_go (nb : NaiveBayesClassifier) (tokens : List String) :
    ∀ (entries : List (String × Int)) (acc : List (String × ℝ) × String × Option ℝ),
      (∀ e ∈ entries, e.2 = 0) →
      entries.foldl (predictStep nb tokens) acc = acc := by
  intro entries
  induction entries with
  | nil => intro acc _; rfl
  | cons e rest ih =>
    intro acc hz
    rw [List.foldl_cons]
    have hstep : predictStep nb tokens acc e = acc := by
      simp [predictStep, hz e (List.mem_cons_self e rest)]
    rw [hstep]
    exact ih acc (fun d hd => hz d (List.mem_cons_of_mem e hd))

theorem nodup_keys_predictFold (nb : NaiveBayesClassifier) (tokens : List String)
    (hnd : (keysList (goEntries nb.classDocCounts)).Nodup) :
    (keysList (predictFold nb tokens).1).Nodup := by
  rw [predictFold_scores nb tokens hnd, keysList_map_snd]
  exact List.Nodup.sublist (List.Sublist.map Prod.fst (List.filter_sublist _)) hnd

theorem predictFold_score_lookup (nb : NaiveBayesClassifier) (tokens : List String)
    (hnd : (keysList (goEntries nb.classDocCounts)).Nodup)
    {e : String × Int} (he : e ∈ goEntries nb.classDocCounts) (hne : e.2 ≠ 0) :
    lookupList 0 (predictFold nb tokens).1 e.1 =
      classLogProb nb tokens e.1 e.2 := by
  have hmem : (e.1, classLogProb nb tokens e.1 e.2) ∈ (predictFold nb tokens).1 := by
    rw [predictFold_scores nb tokens hnd]
    exact List.mem_map.mpr ⟨e, List.mem_filter.mpr ⟨he, by simpa using hne⟩, rfl⟩
  exact lookupList_of_mem_nodup 0 (nodup_keys_predictFold nb tokens hnd) hmem

theorem predictFold_zero_not_mem (nb : NaiveBayesClassifier) (tokens : List String)
    (hnd : (keysList (goEntries nb.classDocCounts)).Nodup)
    {e : String × Int} (he : e ∈ goEntries nb.classDocCounts) (he0 : e.2 = 0) :
    e.1 ∉ keysList (predictFold nb tokens).1 := by
  rw [predictFold_scores nb tokens hnd, keysList_map_snd]
  intro hmem
  obtain ⟨d, hd, hdk⟩ := mem_keysList.mp hmem
  have hd' := List.mem_filter.mp hd
  have h1 : lookupList 0 (goEntries nb.classDocCounts) e.1 = e.2 :=
    lookupList_of_mem_nodup 0 hnd he
  have h2 : lookupList 0 (goEntries nb.classDocCounts) d.1 = d.2 :=
    lookupList_of_mem_nodup 0 hnd hd'.1
  rw [hdk] at h2
  rw [h1] at h2
  have : d.2 ≠ 0 := by simpa using hd'.2
  exact this (h2.symm.trans he0)

theorem sum_map_div (l : List ℝ) (S : ℝ) :
    (l.map (fun x => x / S)).sum = l.sum / S := by
  induction l with
  | nil => simp
  | cons x xs ih => simp [ih, add_div]

theorem normalizeScores_nil (b : ℝ) : normalizeScores [] b = [] := by
  simp [normalizeScores]

/-- On a non-empty score map, normalization produces non-negative values that
sum to exactly 1 (in the idealized real semantics). -/
theorem normalizeScores_valid (scores : List (String × ℝ)) (b : ℝ)
    (h : scores ≠ []) :
    (∀ p ∈ normalizeScores scores b, 0 ≤ p.2) ∧
    ((normalizeScores scores b).map Prod.snd).sum = 1 := by
  have hS : 0 <
      ((scores.map (fun p => (p.1, Real.exp (p.2 - b)))).map Prod.snd).sum := by
    apply List.sum_pos
    · intro x hx
      rcases List.mem_map.mp hx with ⟨q, hq, rfl⟩
      rcases List.mem_map.mp hq with ⟨r, _, rfl⟩
      exact Real.exp_pos _
    · simp [h]
  unfold normalizeScores
  rw [if_neg (by simpa [List.isEmpty_iff] using h)]
  rw [if_neg hS.ne']
  constructor
  · intro p hp
    rcases List.mem_map.mp hp with ⟨q, hq, rfl⟩
    rcases List.mem_map.mp hq with ⟨r, _, rfl⟩
    exact div_nonneg (Real.exp_pos _).le hS.le
  · rw [show ((scores.map (fun p => (p.1, Real.exp (p.2 - b)))).map
        (fun p => (p.1, p.2 / ((scores.map (fun p => (p.1, Real.exp (p.2 - b)))).map
          Prod.snd).sum))).map Prod.snd =
        ((scores.map (fun p => (p.1, Real.exp (p.2 - b)))).map Prod.snd).map
          (fun x => x / ((scores.map (fun p => (p.1, Real.exp (p.2 - b)))).map
            Prod.snd).sum) by
      simp [List.map_map]]
    rw [sum_map_div]
    exact div_self hS.ne'

/-! ## Snapshot round-trip facts -/

theorem sortStrings_perm (l : List String) : (sortStrings l).Perm l :=
  List.perm_insertionSort _ l

theorem keysList_map_unit (l : List String) :
    keysList (l.map (fun t => (t, ()))) = l := by
  induction l with
  | nil => rfl
  | cons t ts ih => simp only [List.map_cons, keysList_cons, ih]

theorem foldl_setList_unit :
    ∀ (l : List String) (acc : List (String × Unit)),
      (∀ t ∈ l, t ∉ keysList acc) → l.Nodup →
      l.foldl (fun v token => setList v token ()) acc =
        acc ++ l.map (fun t => (t, ())) := by
  intro l
  induction l with
  | nil => intro acc _ _; simp
  | cons t ts ih =>
    intro acc hnotin hnd
    rw [List.nodup_cons] at hnd
    have hset : setList acc t () = acc ++ [(t, ())] :=
      setList_of_not_mem (hnotin t (List.mem_cons_self t ts)) _
    rw [List.foldl_cons, hset]
    rw [ih (acc ++ [(t, ())]) ?_ hnd.2]
    · rw [List.append_assoc]
      rfl
    · intro u hu
      rw [keysList_append]
      intro hmem
      rcases List.mem_append.mp hmem with hm | hm
      · exact hnotin u (List.mem_cons_of_mem t hu) hm
      · simp only [keysList_cons, keysList_nil, List.mem_singleton] at hm
        exact hnd.1 (hm ▸ hu)

theorem length_keysList_goEntries {α : Type} (m : GoMap α) :
    (keysList (goEntries m)).length = goLen m := by
  cases m with
  | none => rfl
  | some l => simp [keysList, goLen]

/-- The round-tripped state: the three count maps and `totalDocs` are copied
verbatim, and (when the original vocabulary keys have no duplicates) the
vocabulary is rebuilt as the sorted key list. -/
theorem loadSnapshot_toSnapshot (nb : NaiveBayesClassifier)
    (hnd : (keysList (goEntries nb.vocabulary)).Nodup) :
    nb.LoadSnapshot nb.toSnapshot =
      { classDocCounts := nb.classDocCounts
        classWordCounts := nb.classWordCounts
        classTotalWords := nb.classTotalWords
        vocabulary := some ((sortStrings (keysList (goEntries nb.vocabulary))).map
          (fun t => (t, ())))
        totalDocs := nb.totalDocs } := by
  unfold NaiveBayesClassifier.LoadSnapshot NaiveBayesClassifier.toSnapshot
  simp only [copyIntMap_eq, copyNestedMap_eq, Option.getD_some]
  congr 1
  rw [foldl_setList_unit _ [] (by simp)
    ((sortStrings_perm _).nodup_iff.mpr hnd)]
  rfl

/-- `Predict` reads the vocabulary only through its size, so two states that
differ only in an equally-sized vocabulary predict identically. -/
theorem Predict_vocab_congr (nb : NaiveBayesClassifier) (v' : GoMap Unit)
    (hlen : goLen v' = goLen nb.vocabulary) (text : String) :
    NaiveBayesClassifier.Predict
      { classDocCounts := nb.classDocCounts
        classWordCounts := nb.classWordCounts
        classTotalWords := nb.classTotalWords
        vocabulary := v'
        totalDocs := nb.totalDocs } text = nb.Predict text := by
  unfold NaiveBayesClassifier.Predict predictFold predictStep classLogProb
  simp only [hlen]

/-! ## Evaluation facts (claims C9, C10) -/

theorem sum_map_setList {α : Type} (f : String × α → Int) (d : α)
    {l : List (String × α)} (hnd : (keysList l).Nodup) (k : String) (v : α)
    (hd : f (k, d) = 0) :
    ((setList l k v).map f).sum =
      (l.map f).sum + f (k, v) - f (k, lookupList d l k) := by
  induction l with
  | nil =>
    simp [setList, hd]
  | cons p ps ih =>
    rw [keysList_cons, List.nodup_cons] at hnd
    by_cases hp : p.1 = k
    · have hk : k ∉ keysList ps := hp ▸ hnd.1
      have hpeq : p = (k, p.2) := by
        rw [← hp]
      rw [setList, if_pos (by simp [hp]), List.map_cons, if_pos hp,
        map_set_eq_self_of_not_mem hk, lookupList_cons, if_pos hp]
      simp only [List.map_cons, List.sum_cons]
      rw [hpeq]
      ring
    · rw [setList_cons_of_ne hp, lookupList_cons, if_neg hp]
      simp only [List.map_cons, List.sum_cons]
      rw [ih hnd.2]
      ring

/-- Total of all confusion cells (over the accumulator's plain contents). -/
def sumConfList (conf : List (String × List (String × Int))) : Int :=
  (conf.map (fun p => sumVals p.2)).sum

/-- Sum of the diagonal confusion cells. -/
def diagConfList (conf : List (String × List (String × Int))) : Int :=
  (conf.map (fun p => lookupList 0 p.2 p.1)).sum

theorem evaluateStep_facts (nb : NaiveBayesClassifier) (doc : Document)
    (conf : List (String × List (String × Int))) (correct : Int)
    (hnd : (keysList conf).Nodup) (hinner : ∀ e ∈ conf, (keysList e.2).Nodup) :
    (keysList (evaluateStep nb (conf, correct) doc).1).Nodup ∧
    (∀ e ∈ (evaluateStep nb (conf, correct) doc).1, (keysList e.2).Nodup) ∧
    sumConfList (evaluateStep nb (conf, correct) doc).1 = sumConfList conf + 1 ∧
    diagConfList (evaluateStep nb (conf, correct) doc).1 =
      diagConfList conf +
        (if (nb.Predict doc.Text).1 = doc.Label then 1 else 0) ∧
    (evaluateStep nb (conf, correct) doc).2 =
      correct + (if (nb.Predict doc.Text).1 = doc.Label then 1 else 0) := by
  set P := (nb.Predict doc.Text).1 with hP
  set L := doc.Label with hL
  by_cases hkey : L ∈ keysList conf
  · have histep : evaluateStep nb (conf, correct) doc =
        (setList conf L (setList (lookupList [] conf L) P
          (lookupList 0 (lookupList [] conf L) P + 1)),
         if P = L then correct + 1 else correct) := by
      simp [evaluateStep, hkey, ← hP, ← hL]
    have hinnernd : (keysList (lookupList [] conf L)).Nodup := by
      have := hinner (L, lookupList [] conf L) (lookupList_mem [] hkey)
      exact this
    rw [histep]
    refine ⟨nodup_keysList_setList _ _ hnd, ?_, ?_, ?_, ?_⟩
    · intro e he
      rcases mem_setList he with rfl | he'
      · exact nodup_keysList_setList _ _ hinnernd
      · exact hinner e he'
    · show sumConfList (setList conf L _) = sumConfList conf + 1
      unfold sumConfList
      rw [sum_map_setList (fun p => sumVals p.2) [] hnd L _ rfl]
      rw [sumVals_setList hinnernd]
      ring
    · show diagConfList (setList conf L _) = diagConfList conf + _
      unfold diagConfList
      rw [sum_map_setList (fun p => lookupList 0 p.2 p.1) [] hnd L _ rfl]
      by_cases hPL : P = L
      · rw [if_pos hPL, ← hPL, lookupList_setList_self]
        ring
      · rw [if_neg hPL, lookupList_setList_ne _ _ (fun h => hPL h.symm)]
        ring
    · by_cases hPL : P = L
      · rw [if_pos hPL, if_pos hPL]
      · rw [if_neg hPL, if_neg hPL]
        simp
  · have histep : evaluateStep nb (conf, correct) doc =
        (setList (setList conf L []) L (setList (lookupList [] (setList conf L []) L) P
          (lookupList 0 (lookupList [] (setList conf L []) L) P + 1)),
         if P = L then correct + 1 else correct) := by
      simp [evaluateStep, hkey, ← hP, ← hL]
    have hlook : lookupList [] (setList conf L []) L = [] :=
      lookupList_setList_self _ _ _ _
    have hnd1 : (keysList (setList conf L [])).Nodup := nodup_keysList_setList _ _ hnd
    have hinner1 : ∀ e ∈ setList conf L [], (keysList e.2).Nodup := by
      intro e he
      rcases mem_setList he with rfl | he'
      · exact List.nodup_nil
      · exact hinner e he'
    have hsum1 : sumConfList (setList conf L []) = sumConfList conf := by
      unfold sumConfList
      rw [sum_map_setList (fun p => sumVals p.2) [] hnd L _ rfl]
      rw [lookupList_eq_default_of_not_mem [] hkey]
      simp [sumVals]
    have hdiag1 : diagConfList (setList conf L []) = diagConfList conf := by
      unfold diagConfList
      rw [sum_map_setList (fun p => lookupList 0 p.2 p.1) [] hnd L _ rfl]
      rw [lookupList_eq_default_of_not_mem [] hkey]
      simp
    rw [histep]
    refine ⟨nodup_keysList_setList _ _ hnd1, ?_, ?_, ?_, ?_⟩
    · intro e he
      rcases mem_setList he with rfl | he'
      · rw [hlook]
        have h0 : (keysList ([] : List (String × Int))).Nodup := by simp
        exact nodup_keysList_setList _ _ h0
      · exact hinner1 e he'
    · show sumConfList (setList (setList conf L []) L _) = sumConfList conf + 1
      unfold sumConfList
      rw [sum_map_setList (fun p => sumVals p.2) [] hnd1 L _ rfl]
      rw [hlook]
      unfold sumConfList at hsum1
      rw [hsum1]
      rw [sumVals_setList (by simp : (keysList ([] : List (String × Int))).Nodup)]
      simp [sumVals]
    · show diagConfList (setList (setList conf L []) L _) = diagConfList conf + _
      unfold diagConfList
      rw [sum_map_setList (fun p => lookupList 0 p.2 p.1) [] hnd1 L _ rfl]
      rw [hlook]
      unfold diagConfList at hdiag1
      rw [hdiag1]
      by_cases hPL : P = L
      · rw [if_pos hPL, ← hPL, lookupList_setList_self]
        simp
      · rw [if_neg hPL, lookupList_setList_ne _ _ (fun h => hPL h.symm)]
        simp
    · by_cases hPL : P = L
      · rw [if_pos hPL, if_pos hPL]
      · rw [if_neg hPL, if_neg hPL]
        simp

theorem evaluate_fold_facts (nb : NaiveBayesClassifier) (docs : List Document) :
    ∀ (conf : List (String × List (String × Int))) (correct : Int),
      (keysList conf).Nodup → (∀ e ∈ conf, (keysList e.2).Nodup) →
      (keysList (docs.foldl (evaluateStep nb) (conf, correct)).1).Nodup ∧
      sumConfList (docs.foldl (evaluateStep nb) (conf, correct)).1 =
        sumConfList conf + (docs.length : Int) ∧
      diagConfList (docs.foldl (evaluateStep nb) (conf, correct)).1 -
        (docs.foldl (evaluateStep nb) (conf, correct)).2 =
        diagConfList conf - correct ∧
      correct ≤ (docs.foldl (evaluateStep nb) (conf, correct)).2 ∧
      (docs.foldl (evaluateStep nb) (conf, correct)).2 ≤
        correct + (docs.length : Int) := by
  induction docs with
  | nil =>
    intro conf correct hnd _
    refine ⟨hnd, by simp, by simp, le_refl _, by simp⟩
  | cons doc docs ih =>
    intro conf correct hnd hinner
    obtain ⟨hn1, hi1, hs1, hd1, hc1⟩ := evaluateStep_facts nb doc conf correct hnd hinner
    rw [List.foldl_cons]
    have hr : evaluateStep nb (conf, correct) doc =
        ((evaluateStep nb (conf, correct) doc).1,
          (evaluateStep nb (conf, correct) doc).2) := rfl
    rw [hr]
    obtain ⟨hn', hs', hd', hlo', hhi'⟩ :=
      ih (evaluateStep nb (conf, correct) doc).1
        (evaluateStep nb (conf, correct) doc).2 hn1 hi1
    have hlen : (((doc :: docs).length : Nat) : Int) = (docs.length : Int) + 1 := by
      simp
    refine ⟨hn', ?_, ?_, ?_, ?_⟩
    · rw [hs', hs1, hlen]
      ring
    · rw [hd', hd1, hc1]
      ring
    · refine le_trans ?_ hlo'
      rw [hc1]
      by_cases hPL : (nb.Predict doc.Text).1 = doc.Label
      · rw [if_pos hPL]; omega
      · rw [if_neg hPL]; omega
    · refine le_trans hhi' ?_
      rw [hc1, hlen]
      by_cases hPL : (nb.Predict doc.Text).1 = doc.Label
      · rw [if_pos hPL]; omega
      · rw [if_neg hPL]; omega

/-- Total of all cells of a confusion matrix. -/
def sumConfusion (m : GoMap (GoMap Int)) : Int :=
  ((goEntries m).map (fun p => sumVals (goEntries p.2))).sum

/-- Sum of the diagonal cells of a confusion matrix. -/
def diagConfusion (m : GoMap (GoMap Int)) : Int :=
  ((goEntries m).map (fun p => lookupList 0 (goEntries p.2) p.1)).sum

theorem sumConfusion_wrap (conf : List (String × List (String × Int))) :
    sumConfusion (some (conf.map (fun p => (p.1, some p.2)))) = sumConfList conf := by
  unfold sumConfusion sumConfList
  simp [List.map_map]
  rfl

theorem diagConfusion_wrap (conf : List (String × List (String × Int))) :
    diagConfusion (some (conf.map (fun p => (p.1, some p.2)))) = diagConfList conf := by
  unfold diagConfusion diagConfList
  simp [List.map_map]
  rfl

/-! ## Concrete states used by the claim witnesses -/

/-- The state `Train "good app" "positive"` produces from the empty model. -/
def nbDemo1 : NaiveBayesClassifier :=
  { classDocCounts := some [("positive", 1)]
    classWordCounts := some [("positive", some [("good", 1), ("app", 1)])]
    classTotalWords := some [("positive", 2)]
    vocabulary := some [("good", ()), ("app", ())]
    totalDocs := 1 }

/-- The state a further `Train "bad slow" "negative"` produces. -/
def nbDemo : NaiveBayesClassifier :=
  { classDocCounts := some [("positive", 1), ("negative", 1)]
    classWordCounts := some [("positive", some [("good", 1), ("app", 1)]),
      ("negative", some [("bad", 1), ("slow", 1)])]
    classTotalWords := some [("positive", 2), ("negative", 2)]
    vocabulary := some [("good", ()), ("app", ()), ("bad", ()), ("slow", ())]
    totalDocs := 2 }

/-- The zero-value snapshot: all mappings nil. -/
def nilSnapshot : Snapshot :=
  { ClassDocCounts := none
    ClassWordCounts := none
    ClassTotalWords := none
    Vocabulary := none
    TotalDocs := 0 }

/-- A well-formed (non-nil) snapshot. -/
def okSnapshot : Snapshot :=
  { ClassDocCounts := some [("positive", 1)]
    ClassWordCounts := some [("positive", some [("good", 1)])]
    ClassTotalWords := some [("positive", 1)]
    Vocabulary := some ["good"]
    TotalDocs := 1 }

/-! ## The claims -/

/-- C5: for every input string the tokenizer returns exactly the sequence
obtained by lower-casing the whole input and splitting on every maximal run
of characters that are neither letters nor digits (per-character Unicode
letter/number classification); no empty token ever appears and adjacent
delimiters collapse (the non-empty pieces of `splitOnP` are exactly the
maximal runs between separators). -/
theorem tokenize_is_lowercase_split (text : String) :
    tokenize text =
      (((text.toList.map goToLower).splitOnP
        (fun r => !(unicodeIsLetter r || unicodeIsNumber r))).filter
        (fun f => !f.isEmpty)).map String.mk ∧
    ∀ t ∈ tokenize text, t ≠ "" := by
  constructor
  · show (fieldsFunc (fun r => !(unicodeIsLetter r || unicodeIsNumber r))
      (text.toList.map goToLower)).map String.mk = _
    rw [fieldsFunc_eq]
  · intro t ht
    exact tokenize_ne_empty ht

/-- C8: `Predict` is a pure read of the model state: the call leaves the
receiver unchanged, and a second call on that state with the same text
returns the same label and the same distribution (the embedding fixes one
map iteration order; for a fixed order the strict-inequality best tracking
is deterministic even under exact score ties). -/
theorem Predict_deterministic (nb : NaiveBayesClassifier) (text : String) :
    (PredictCall nb text).2 = nb ∧
    (PredictCall (PredictCall nb text).2 text).1 = (PredictCall nb text).1 :=
  ⟨rfl, rfl⟩

/-- C9: the accuracy is `correct / total` when `total > 0` and exactly `0`
when `total = 0`; the zero case is guarded, never divided. -/
theorem Accuracy_guarded (m : Metrics) :
    (0 < m.Total → m.Accuracy = (m.Correct : ℝ) / (m.Total : ℝ)) ∧
    (m.Total = 0 → m.Accuracy = 0) := by
  constructor
  · intro h
    unfold Metrics.Accuracy
    rw [if_neg (by omega)]
  · intro h
    unfold Metrics.Accuracy
    rw [if_pos h]

theorem Accuracy_guarded_witness :
    (0 < (({ Total := 2, Correct := 1, Confusion := none } : Metrics).Total) ∧
      ({ Total := 2, Correct := 1, Confusion := none } : Metrics).Accuracy =
        ((1 : Int) : ℝ) / ((2 : Int) : ℝ)) ∧
    (({ Total := 0, Correct := 0, Confusion := none } : Metrics).Total = 0 ∧
      ({ Total := 0, Correct := 0, Confusion := none } : Metrics).Accuracy = 0) :=
  ⟨⟨by decide,
    (Accuracy_guarded { Total := 2, Correct := 1, Confusion := none }).1 (by decide)⟩,
   ⟨rfl, (Accuracy_guarded { Total := 0, Correct := 0, Confusion := none }).2 rfl⟩⟩

/-- C3 counterexample: the claim fails as stated.  Loading the zero-value
snapshot (all mappings nil — the copy helpers preserve nil) and then calling
`train` makes Go write to a nil map, a runtime panic; the run therefore does
not complete (`none` marks the panic). -/
theorem train_after_nil_snapshot_panics :
    runCalls NewNaiveBayesClassifier
      [CoreCall.loadSnapshot nilSnapshot, CoreCall.train "good" "positive"] =
      none := by
  decide

/-- C3 (amended): every sequence of core calls completes from any state with
non-nil mappings (in particular every state reachable from the fresh model),
provided each loaded snapshot has non-nil mappings; `predict`, `evaluate`,
`toSnapshot`, `loadSnapshot` and `reset` perform no map writes and never
panic, and `train`/`trainBatch` cannot hit a nil map on such states. -/
theorem core_calls_complete_on_wellformed (calls : List CoreCall)
    (nb : NaiveBayesClassifier) (h : WellFormed nb)
    (hc : ∀ c ∈ calls, callSnapOK c) :
    ∃ nb', runCalls nb calls = some nb' ∧ WellFormed nb' :=
  runCalls_some calls nb h hc

theorem core_calls_complete_witness :
    (WellFormed NewNaiveBayesClassifier ∧
      (∀ c ∈ [CoreCall.train "good app" "positive", CoreCall.snapshot,
        CoreCall.predict "nice", CoreCall.reset,
        CoreCall.trainBatch [{ Text := "bad", Label := "negative" }],
        CoreCall.loadSnapshot okSnapshot, CoreCall.train "x" "y"], callSnapOK c)) ∧
    (∃ nb', runCalls NewNaiveBayesClassifier
      [CoreCall.train "good app" "positive", CoreCall.snapshot,
        CoreCall.predict "nice", CoreCall.reset,
        CoreCall.trainBatch [{ Text := "bad", Label := "negative" }],
        CoreCall.loadSnapshot okSnapshot, CoreCall.train "x" "y"] = some nb' ∧
      WellFormed nb') :=
  ⟨⟨by decide, by
      intro c hc
      fin_cases hc <;> decide⟩,
    core_calls_complete_on_wellformed _ NewNaiveBayesClassifier (by decide)
      (by
        intro c hc
        fin_cases hc <;> decide)⟩

/-- C6: on any state whose maps are non-nil (every state not corrupted by a
nil-bearing snapshot, in particular every trained state), a single
`train(text, label)` completes and increases `totalDocs` by exactly 1 and
`classDocCounts[label]` by exactly 1 — also for empty text and the
empty-string label — and the new vocabulary key set contains the old one. -/
theorem Train_monotonicity (nb : NaiveBayesClassifier) (text label : String)
    (h : WellFormed nb) :
    ∃ nb', nb.Train text label = some nb' ∧
      nb'.totalDocs = nb.totalDocs + 1 ∧
      goGet 0 nb'.classDocCounts label = goGet 0 nb.classDocCounts label + 1 ∧
      ∀ t, t ∈ keysList (goEntries nb.vocabulary) →
        t ∈ keysList (goEntries nb'.vocabulary) := by
  obtain ⟨nb', he, -, htd, hdc, hvk⟩ := Train_some nb text label h
  exact ⟨nb', he, htd, hdc, hvk⟩

theorem Train_monotonicity_witness :
    (WellFormed nbDemo ∧
      ∃ nb', nbDemo.Train "" "" = some nb' ∧
        nb'.totalDocs = nbDemo.totalDocs + 1 ∧
        goGet 0 nb'.classDocCounts "" = goGet 0 nbDemo.classDocCounts "" + 1 ∧
        ∀ t, t ∈ keysList (goEntries nbDemo.vocabulary) →
          t ∈ keysList (goEntries nb'.vocabulary)) :=
  ⟨by decide, Train_monotonicity nbDemo "" "" (by decide)⟩

/-- C7: in every state reachable from the empty model by `Train`,
`TrainBatch` and `Reset`: every document count is non-negative, `totalDocs`
is the sum of the document counts, `classTotalWords[L]` is the sum of the
word counts of `L` for every label, and the vocabulary is exactly the union
of the per-label word-count key sets. -/
theorem reachable_counting_invariants (nb : NaiveBayesClassifier)
    (h : Reachable nb) :
    (∀ L : String, 0 ≤ goGet 0 nb.classDocCounts L) ∧
    nb.totalDocs = sumVals (goEntries nb.classDocCounts) ∧
    (∀ L : String, goGet 0 nb.classTotalWords L =
      sumVals (goEntries (goGet none nb.classWordCounts L))) ∧
    (∀ t : String, t ∈ keysList (goEntries nb.vocabulary) ↔
      ∃ e ∈ goEntries nb.classWordCounts, t ∈ keysList (goEntries e.2)) := by
  obtain ⟨-, -, cc1, cc2, cc3, cc4⟩ := reachable_invariant h
  refine ⟨?_, cc2, cc3, cc4⟩
  intro L
  cases hdcv : nb.classDocCounts with
  | none => simp
  | some dl =>
    simp only [goGet_some]
    by_cases hk : L ∈ keysList dl
    · have := cc1 (L, lookupList 0 dl L) (by rw [hdcv]; exact lookupList_mem 0 hk)
      exact this
    · rw [lookupList_eq_default_of_not_mem 0 hk]

theorem reachable_counting_invariants_witness :
    Reachable nbDemo ∧
    ((∀ L : String, 0 ≤ goGet 0 nbDemo.classDocCounts L) ∧
      nbDemo.totalDocs = sumVals (goEntries nbDemo.classDocCounts) ∧
      (∀ L : String, goGet 0 nbDemo.classTotalWords L =
        sumVals (goEntries (goGet none nbDemo.classWordCounts L))) ∧
      (∀ t : String, t ∈ keysList (goEntries nbDemo.vocabulary) ↔
        ∃ e ∈ goEntries nbDemo.classWordCounts,
          t ∈ keysList (goEntries e.2))) :=
  ⟨Reachable.train (Reachable.train Reachable.new
      (by decide : NewNaiveBayesClassifier.Train "good app" "positive" =
        some nbDemo1))
      (by decide : nbDemo1.Train "bad slow" "negative" = some nbDemo),
    reachable_counting_invariants nbDemo
      (Reachable.train (Reachable.train Reachable.new
        (by decide : NewNaiveBayesClassifier.Train "good app" "positive" =
          some nbDemo1))
        (by decide : nbDemo1.Train "bad slow" "negative" = some nbDemo))⟩

/-- C4: for a trained model (whose vocabulary set, like any Go map, has no
duplicate keys), loading the model's own snapshot reproduces the four state
components field-for-field — the vocabulary up to ordering (it comes back
sorted) — and `totalDocs`; consequently `Predict` is unchanged on every
input text (it reads the vocabulary only through its size). -/
theorem snapshot_roundtrip (nb : NaiveBayesClassifier)
    (hnd : (keysList (goEntries nb.vocabulary)).Nodup) :
    (nb.LoadSnapshot nb.toSnapshot).classDocCounts = nb.classDocCounts ∧
    (nb.LoadSnapshot nb.toSnapshot).classWordCounts = nb.classWordCounts ∧
    (nb.LoadSnapshot nb.toSnapshot).classTotalWords = nb.classTotalWords ∧
    (nb.LoadSnapshot nb.toSnapshot).totalDocs = nb.totalDocs ∧
    (∀ t, t ∈ keysList (goEntries (nb.LoadSnapshot nb.toSnapshot).vocabulary) ↔
      t ∈ keysList (goEntries nb.vocabulary)) ∧
    (∀ text, (nb.LoadSnapshot nb.toSnapshot).Predict text = nb.Predict text) := by
  rw [loadSnapshot_toSnapshot nb hnd]
  refine ⟨rfl, rfl, rfl, rfl, ?_, ?_⟩
  · intro t
    simp only [goEntries_some, keysList_map_unit]
    exact (sortStrings_perm _).mem_iff
  · intro text
    apply Predict_vocab_congr
    simp only [goLen]
    rw [List.length_map, (sortStrings_perm _).length_eq,
      length_keysList_goEntries]
    rfl

theorem snapshot_roundtrip_witness :
    (keysList (goEntries nbDemo.vocabulary)).Nodup ∧
    ((nbDemo.LoadSnapshot nbDemo.toSnapshot).classDocCounts =
        nbDemo.classDocCounts ∧
      (∀ text, (nbDemo.LoadSnapshot nbDemo.toSnapshot).Predict text =
        nbDemo.Predict text)) :=
  ⟨by decide,
    (snapshot_roundtrip nbDemo (by decide)).1,
    (snapshot_roundtrip nbDemo (by decide)).2.2.2.2.2⟩

/-- C10: the metrics `Evaluate` returns are internally consistent: `Total` is
the number of documents, the confusion cells sum to `Total`, `Correct` is the
diagonal sum, `0 ≤ Correct ≤ Total`, and the accuracy lies in `[0, 1]`. -/
theorem Evaluate_metrics_consistent (nb : NaiveBayesClassifier)
    (docs : List Document) :
    (Evaluate nb docs).Total = (docs.length : Int) ∧
    sumConfusion (Evaluate nb docs).Confusion = (Evaluate nb docs).Total ∧
    (Evaluate nb docs).Correct = diagConfusion (Evaluate nb docs).Confusion ∧
    0 ≤ (Evaluate nb docs).Correct ∧
    (Evaluate nb docs).Correct ≤ (Evaluate nb docs).Total ∧
    0 ≤ (Evaluate nb docs).Accuracy ∧
    (Evaluate nb docs).Accuracy ≤ 1 := by
  obtain ⟨hn, hs, hd, hlo, hhi⟩ :=
    evaluate_fold_facts nb docs [] 0 (by simp) (by intro e he; simp at he)
  have e1 : (Evaluate nb docs).Total = (docs.length : Int) := rfl
  have e2 : (Evaluate nb docs).Correct =
      (docs.foldl (evaluateStep nb) ([], (0 : Int))).2 := rfl
  have e3 : (Evaluate nb docs).Confusion =
      some (((docs.foldl (evaluateStep nb) ([], (0 : Int))).1).map
        (fun p => (p.1, some p.2))) := rfl
  have h0s : sumConfList ([] : List (String × List (String × Int))) = 0 := rfl
  have h0d : diagConfList ([] : List (String × List (String × Int))) = 0 := rfl
  rw [h0s] at hs
  rw [h0d] at hd
  have hc0 : 0 ≤ (Evaluate nb docs).Correct := by rw [e2]; exact hlo
  have hct : (Evaluate nb docs).Correct ≤ (Evaluate nb docs).Total := by
    rw [e2, e1]; omega
  have htn : 0 ≤ (Evaluate nb docs).Total := by
    rw [e1]; exact Int.natCast_nonneg _
  refine ⟨e1, ?_, ?_, hc0, hct, ?_, ?_⟩
  · rw [e3, e1, sumConfusion_wrap, hs]
    omega
  · rw [e2, e3, diagConfusion_wrap]
    omega
  · unfold Metrics.Accuracy
    by_cases h0 : (Evaluate nb docs).Total = 0
    · rw [if_pos h0]
    · rw [if_neg h0]
      exact div_nonneg (by exact_mod_cast hc0) (by exact_mod_cast htn)
  · unfold Metrics.Accuracy
    by_cases h0 : (Evaluate nb docs).Total = 0
    · rw [if_pos h0]
      exact zero_le_one
    · rw [if_neg h0]
      rw [div_le_one (by exact_mod_cast lt_of_le_of_ne htn (Ne.symm h0))]
      exact_mod_cast hct

/-- C1: for every model state (with the map properties every real Go map
has: no duplicate keys, and — as in every state reachable by training —
non-negative document counts) and every text, `Predict` records for each
class with a positive document count the raw log-score
`log(classDocCounts[C]/totalDocs) + Σ_t log((count(C,t)+1) /
(classTotalWords[C]+|vocabulary|))` over the tokens of the text, skips every
class with a zero document count, and returns a label whose raw log-score is
maximal among the recorded ones. -/
theorem Predict_raw_scores (nb : NaiveBayesClassifier) (text : String)
    (hnd : (keysList (goEntries nb.classDocCounts)).Nodup)
    (hnonneg : ∀ e ∈ goEntries nb.classDocCounts, 0 ≤ e.2) :
    (∀ e ∈ goEntries nb.classDocCounts, 0 < e.2 →
      lookupList 0 (predictFold nb (tokenize text)).1 e.1 =
        Real.log ((e.2 : ℝ) / (nb.totalDocs : ℝ)) +
        ((tokenize text).map (fun token => Real.log
          ((((goGet 0 (goGet none nb.classWordCounts e.1) token : Int) : ℝ) + 1) /
            (((goGet 0 nb.classTotalWords e.1 : Int) : ℝ) +
              (goLen nb.vocabulary : ℝ))))).sum) ∧
    (∀ e ∈ goEntries nb.classDocCounts, e.2 = 0 →
      e.1 ∉ keysList (predictFold nb (tokenize text)).1) ∧
    ((∃ e ∈ goEntries nb.classDocCounts, 0 < e.2) →
      ∃ e ∈ goEntries nb.classDocCounts, 0 < e.2 ∧ (nb.Predict text).1 = e.1 ∧
        ∀ p ∈ (predictFold nb (tokenize text)).1,
          p.2 ≤ lookupList 0 (predictFold nb (tokenize text)).1 e.1) := by
  refine ⟨?_, ?_, ?_⟩
  · intro e he hpos
    rw [predictFold_score_lookup nb _ hnd he (ne_of_gt hpos)]
    exact classLogProb_eq nb _ e.1 e.2 (fun t ht => tokenize_ne_empty ht)
  · intro e he h0
    exact predictFold_zero_not_mem nb _ hnd he h0
  · rintro ⟨e, he, hpos⟩
    have hmem : (e.1, classLogProb nb (tokenize text) e.1 e.2) ∈
        (predictFold nb (tokenize text)).1 := by
      rw [predictFold_scores nb _ hnd]
      exact List.mem_map.mpr
        ⟨e, List.mem_filter.mpr ⟨he, by simp [ne_of_gt hpos]⟩, rfl⟩
    cases hbv : (predictFold nb (tokenize text)).2.2 with
    | none =>
      have hsc : (predictFold nb (tokenize text)).1 = [] := by
        have := predictFold_best nb (tokenize text) hnd
        unfold BestInv at this
        rw [hbv] at this
        exact this
      rw [hsc] at hmem
      simp at hmem
    | some b =>
      have hBest : ((predictFold nb (tokenize text)).2.1, b) ∈
          (predictFold nb (tokenize text)).1 ∧
          ∀ p ∈ (predictFold nb (tokenize text)).1, p.2 ≤ b := by
        have := predictFold_best nb (tokenize text) hnd
        unfold BestInv at this
        rw [hbv] at this
        exact this
      obtain ⟨hbmem, hbound⟩ := hBest
      rw [predictFold_scores nb _ hnd] at hbmem
      obtain ⟨d, hdf, hdeq⟩ := List.mem_map.mp hbmem
      have hd := List.mem_filter.mp hdf
      have hdne : d.2 ≠ 0 := by simpa using hd.2
      have hdpos : 0 < d.2 := lt_of_le_of_ne (hnonneg d hd.1) (Ne.symm hdne)
      refine ⟨d, hd.1, hdpos, ?_, ?_⟩
      · show (predictFold nb (tokenize text)).2.1 = d.1
        exact (congrArg Prod.fst hdeq).symm
      · intro p hp
        have hlook : lookupList 0 (predictFold nb (tokenize text)).1 d.1 =
            classLogProb nb (tokenize text) d.1 d.2 :=
          predictFold_score_lookup nb _ hnd hd.1 hdne
        have hb : classLogProb nb (tokenize text) d.1 d.2 = b :=
          congrArg Prod.snd hdeq
        rw [hlook, hb]
        exact hbound p hp

theorem Predict_raw_scores_witness :
    ((keysList (goEntries nbDemo.classDocCounts)).Nodup ∧
      (∀ e ∈ goEntries nbDemo.classDocCounts, 0 ≤ e.2) ∧
      (∃ e ∈ goEntries nbDemo.classDocCounts, 0 < e.2)) ∧
    (∃ e ∈ goEntries nbDemo.classDocCounts, 0 < e.2 ∧
      (nbDemo.Predict "good").1 = e.1 ∧
      ∀ p ∈ (predictFold nbDemo (tokenize "good")).1,
        p.2 ≤ lookupList 0 (predictFold nbDemo (tokenize "good")).1 e.1) :=
  ⟨⟨by decide, by decide, by decide⟩,
    (Predict_raw_scores nbDemo "good" (by decide) (by decide)).2.2 (by decide)⟩

/-- C2: on any state with no duplicate map keys and non-negative document
counts (every state reachable by training): when at least one class has a
positive document count, the returned distribution has only non-negative
values and they sum exactly to 1 in the idealized real semantics (so within
floating-point tolerance of 1.0 in the implementation); when no class has a
positive document count — e.g. an untrained model — `predict` returns the
empty-string label and the empty distribution. -/
theorem Predict_distribution_valid (nb : NaiveBayesClassifier) (text : String)
    (hnd : (keysList (goEntries nb.classDocCounts)).Nodup)
    (hnonneg : ∀ e ∈ goEntries nb.classDocCounts, 0 ≤ e.2) :
    ((∃ e ∈ goEntries nb.classDocCounts, 0 < e.2) →
      (∀ p ∈ (nb.Predict text).2, 0 ≤ p.2) ∧
      ((nb.Predict text).2.map Prod.snd).sum = 1) ∧
    ((∀ e ∈ goEntries nb.classDocCounts, ¬ 0 < e.2) →
      nb.Predict text = ("", [])) := by
  constructor
  · rintro ⟨e, he, hpos⟩
    have hmem : (e.1, classLogProb nb (tokenize text) e.1 e.2) ∈
        (predictFold nb (tokenize text)).1 := by
      rw [predictFold_scores nb _ hnd]
      exact List.mem_map.mpr
        ⟨e, List.mem_filter.mpr ⟨he, by simp [ne_of_gt hpos]⟩, rfl⟩
    have hne : (predictFold nb (tokenize text)).1 ≠ [] := by
      intro hcontra
      rw [hcontra] at hmem
      simp at hmem
    have hdist : (nb.Predict text).2 =
        normalizeScores (predictFold nb (tokenize text)).1
          ((predictFold nb (tokenize text)).2.2.getD 0) := rfl
    rw [hdist]
    exact normalizeScores_valid _ _ hne
  · intro hz
    have hzero : ∀ e ∈ goEntries nb.classDocCounts, e.2 = 0 := fun e he =>
      le_antisymm (not_lt.mp (hz e he)) (hnonneg e he)
    have hfold : predictFold nb (tokenize text) = ([], "", none) :=
      predictFold_all_zero_go nb (tokenize text) _ _ hzero
    show ((predictFold nb (tokenize text)).2.1,
      normalizeScores (predictFold nb (tokenize text)).1
        ((predictFold nb (tokenize text)).2.2.getD 0)) = ("", [])
    rw [hfold]
    simp [normalizeScores]

theorem Predict_distribution_valid_witness :
    ((keysList (goEntries nbDemo.classDocCounts)).Nodup ∧
      (∀ e ∈ goEntries nbDemo.classDocCounts, 0 ≤ e.2) ∧
      (∃ e ∈ goEntries nbDemo.classDocCounts, 0 < e.2)) ∧
    ((∀ p ∈ (nbDemo.Predict "good").2, 0 ≤ p.2) ∧
      ((nbDemo.Predict "good").2.map Prod.snd).sum = 1) :=
  ⟨⟨by decide, by decide, by decide⟩,
    (Predict_distribution_valid nbDemo "good" (by decide) (by decide)).1
      (by decide)⟩
